import Mathlib

/-!
Verification of the obsidian-content-publisher plugin.

The repository publishes an Obsidian note to GitHub as a pull request:
it resolves media references in the note text (`MediaHandler`), creates a
branch, uploads the transformed content file and opens a pull request
(`GitHubService.createPullRequest`), with string utilities
(`generateSlug`, template processing) on the side.

This file gives a shallow embedding of those functions and proves or
refutes the specification claims about them.  Pure functions become Lean
functions over `String` / `List Char`; the GitHub REST API becomes an
explicit remote-state model with the endpoints' documented semantics;
fallible calls return `Except`.
-/

namespace ContentPublisher

/-! ## JavaScript string slug pipeline (src/utils/frontmatter.ts, generateSlug)

`generateSlug` is

    title.toLowerCase().replace(/[^a-z0-9]+/g, '-').replace(/(^-|-$)/g, '')

`toLowerCase` is modelled character-wise with `Char.toLower`; characters
outside ASCII are erased by the following `[^a-z0-9]+` replacement either
way, so the simple case mapping is faithful for every property below. -/

/-- Characters matched by the regex class `[a-z0-9]` (ASCII 97-122 and 48-57). -/
def isSlugChar (c : Char) : Bool :=
  (97 ≤ c.toNat && c.toNat ≤ 122) || (48 ≤ c.toNat && c.toNat ≤ 57)

/-- A character allowed in a finished slug: `[a-z0-9]` or a hyphen. -/
def slugCharOrDash (c : Char) : Bool :=
  isSlugChar c || c == '-'

theorem length_dropWhile_le {α : Type} (p : α → Bool) :
    ∀ l : List α, (l.dropWhile p).length ≤ l.length := by
  intro l
  induction l with
  | nil => simp
  | cons a l ih =>
    rw [List.dropWhile_cons]
    split
    · exact Nat.le_trans ih (Nat.le_succ _)
    · exact Nat.le_refl _

/-- `.replace(/[^a-z0-9]+/g, '-')`: every maximal run of characters outside
`[a-z0-9]` becomes a single hyphen. -/
def dashRuns : List Char → List Char
  | [] => []
  | c :: cs =>
    if isSlugChar c then c :: dashRuns cs
    else '-' :: dashRuns (cs.dropWhile (fun d => !isSlugChar d))
termination_by l => l.length
decreasing_by
  · simp
  · have h := length_dropWhile_le (fun d => !isSlugChar d) cs
    simp only [List.length_cons]
    omega

/-- The `^-` alternative of `.replace(/(^-|-$)/g, '')`: one leading hyphen,
if present, is removed. -/
def dropLeadDash (cs : List Char) : List Char :=
  match cs with
  | c :: rest => if c = '-' then rest else c :: rest
  | [] => []

/-- The `-$` alternative of `.replace(/(^-|-$)/g, '')`: one trailing hyphen,
if present, is removed. -/
def dropTrailDash : List Char → List Char
  | [] => []
  | [c] => if c = '-' then [] else [c]
  | a :: b :: cs => a :: dropTrailDash (b :: cs)

/-- `String.prototype.toLowerCase`, character-wise. -/
def jsToLowerCase (s : String) : String :=
  ⟨s.data.map Char.toLower⟩

/-- `generateSlug` from src/utils/frontmatter.ts. -/
def generateSlug (title : String) : String :=
  ⟨dropTrailDash (dropLeadDash (dashRuns (jsToLowerCase title).data))⟩

/-- True when no two consecutive characters are both hyphens. -/
def noDoubleDash : List Char → Bool
  | [] => true
  | [_] => true
  | a :: b :: cs => !(a == '-' && b == '-') && noDoubleDash (b :: cs)

theorem isSlugChar_ne_dash {c : Char} (h : isSlugChar c = true) : c ≠ '-' := by
  intro hc
  subst hc
  simp [isSlugChar] at h

theorem dashRuns_all_slugCharOrDash (cs : List Char) :
    (dashRuns cs).all slugCharOrDash = true := by
  induction cs using dashRuns.induct with
  | case1 => simp [dashRuns]
  | case2 c cs hslug ih =>
    rw [dashRuns, if_pos hslug, List.all_cons, ih]
    simp [slugCharOrDash, hslug]
  | case3 c cs hslug ih =>
    rw [dashRuns, if_neg hslug, List.all_cons, ih]
    simp [slugCharOrDash]

theorem dashRuns_head_slug (ds : List Char)
    (h : ∀ d, ds.head? = some d → isSlugChar d = true) :
    ∀ b, (dashRuns ds).head? = some b → isSlugChar b = true := by
  intro b hb
  cases ds with
  | nil => simp [dashRuns] at hb
  | cons d rest =>
    have hd : isSlugChar d = true := h d rfl
    rw [dashRuns, if_pos hd, List.head?_cons] at hb
    cases hb
    exact hd

theorem noDoubleDash_cons_of_head {a : Char} {l : List Char}
    (hne : ¬(a = '-' ∧ l.head? = some '-')) (hl : noDoubleDash l = true) :
    noDoubleDash (a :: l) = true := by
  cases l with
  | nil => simp [noDoubleDash]
  | cons b rest =>
    simp only [noDoubleDash, Bool.and_eq_true, Bool.not_eq_true', hl, and_true]
    simp only [List.head?_cons] at hne
    by_cases ha : a = '-'
    · have hb : b ≠ '-' := fun hb => hne ⟨ha, by simp [hb]⟩
      simp [hb]
    · simp [ha]

theorem noDoubleDash_dashRuns (cs : List Char) :
    noDoubleDash (dashRuns cs) = true := by
  induction cs using dashRuns.induct with
  | case1 => simp [dashRuns, noDoubleDash]
  | case2 c cs hslug ih =>
    rw [dashRuns, if_pos hslug]
    refine noDoubleDash_cons_of_head ?_ ih
    rintro ⟨hc, _⟩
    exact isSlugChar_ne_dash hslug hc
  | case3 c cs hslug ih =>
    rw [dashRuns, if_neg hslug]
    refine noDoubleDash_cons_of_head ?_ ih
    rintro ⟨-, hhead⟩
    have hds : ∀ d, (cs.dropWhile (fun d => !isSlugChar d)).head? = some d →
        isSlugChar d = true := by
      intro d hd
      have h2 := List.head?_dropWhile_not (fun d => !isSlugChar d) cs
      rw [hd] at h2
      simpa using h2
    have h3 := dashRuns_head_slug _ hds '-' hhead
    exact isSlugChar_ne_dash h3 rfl

theorem noDoubleDash_tail {a : Char} {l : List Char}
    (h : noDoubleDash (a :: l) = true) : noDoubleDash l = true := by
  cases l with
  | nil => simp [noDoubleDash]
  | cons b rest =>
    rw [noDoubleDash, Bool.and_eq_true] at h
    exact h.2

theorem dropLeadDash_all {p : Char → Bool} {l : List Char}
    (h : l.all p = true) : (dropLeadDash l).all p = true := by
  cases l with
  | nil => exact h
  | cons c rest =>
    rw [List.all_cons, Bool.and_eq_true] at h
    by_cases hc : c = '-'
    · simp only [dropLeadDash, if_pos hc]
      exact h.2
    · simp only [dropLeadDash, if_neg hc]
      rw [List.all_cons, Bool.and_eq_true]
      exact h

theorem dropLeadDash_noDoubleDash {l : List Char}
    (h : noDoubleDash l = true) : noDoubleDash (dropLeadDash l) = true := by
  cases l with
  | nil => exact h
  | cons c rest =>
    by_cases hc : c = '-'
    · simp only [dropLeadDash, if_pos hc]
      exact noDoubleDash_tail h
    · simp only [dropLeadDash, if_neg hc]
      exact h

theorem dropLeadDash_head {l : List Char} (h : noDoubleDash l = true) :
    ((dropLeadDash l).head? == some '-') = false := by
  cases l with
  | nil => simp [dropLeadDash]
  | cons c rest =>
    by_cases hc : c = '-'
    · simp only [dropLeadDash, if_pos hc]
      subst hc
      cases rest with
      | nil => simp
      | cons b r2 =>
        rw [noDoubleDash, Bool.and_eq_true] at h
        rcases h with ⟨h1, -⟩
        simp only [Bool.not_eq_true', Bool.and_eq_false_iff] at h1
        rcases h1 with h1 | h1
        · simp at h1
        · simpa using h1
    · simp only [dropLeadDash, if_neg hc]
      simpa using hc

theorem dropTrailDash_all {p : Char → Bool} :
    ∀ l : List Char, l.all p = true → (dropTrailDash l).all p = true := by
  intro l
  induction l using dropTrailDash.induct with
  | case1 => intro h; exact h
  | case2 => intro h; simp [dropTrailDash]
  | case3 c hc => intro h; simpa [dropTrailDash, hc] using h
  | case4 a b cs ih =>
    intro h
    rw [dropTrailDash]
    rw [List.all_cons, Bool.and_eq_true] at h
    rw [List.all_cons, Bool.and_eq_true]
    exact ⟨h.1, ih h.2⟩

theorem dropTrailDash_head :
    ∀ l : List Char, (dropTrailDash l).head? = l.head? ∨ dropTrailDash l = [] := by
  intro l
  induction l using dropTrailDash.induct with
  | case1 => right; rfl
  | case2 => right; simp [dropTrailDash]
  | case3 c hc => left; simp [dropTrailDash, hc]
  | case4 a b cs ih => left; rw [dropTrailDash]; simp

theorem dropTrailDash_noDoubleDash :
    ∀ l : List Char, noDoubleDash l = true → noDoubleDash (dropTrailDash l) = true := by
  intro l
  induction l using dropTrailDash.induct with
  | case1 => intro h; exact h
  | case2 => intro h; simp [dropTrailDash, noDoubleDash]
  | case3 c hc => intro h; simp [dropTrailDash, hc, noDoubleDash]
  | case4 a b cs ih =>
    intro h
    rw [dropTrailDash]
    rw [noDoubleDash, Bool.and_eq_true] at h
    have htail := ih h.2
    refine noDoubleDash_cons_of_head ?_ htail
    rintro ⟨ha, hhead⟩
    rcases dropTrailDash_head (b :: cs) with heq | heq
    · rw [heq, List.head?_cons] at hhead
      cases hhead
      rcases h with ⟨h1, -⟩
      rw [ha] at h1
      simp at h1
    · rw [heq] at hhead
      simp at hhead

theorem dropTrailDash_getLast :
    ∀ l : List Char, noDoubleDash l = true →
      ((dropTrailDash l).getLast? == some '-') = false := by
  intro l
  induction l using dropTrailDash.induct with
  | case1 => intro _; simp [dropTrailDash]
  | case2 => intro _; simp [dropTrailDash]
  | case3 c hc =>
    intro _
    simp only [dropTrailDash, if_neg hc, List.getLast?_singleton]
    simpa using hc
  | case4 a b cs ih =>
    intro h
    rw [dropTrailDash]
    rw [noDoubleDash, Bool.and_eq_true] at h
    have htail := ih h.2
    rcases hconn : dropTrailDash (b :: cs) with _ | ⟨x, xs⟩
    · have hba : (a == '-') = false := by
        have hb : b = '-' := by
          cases cs with
          | nil =>
            by_cases hb : b = '-'
            · exact hb
            · simp [dropTrailDash, hb] at hconn
          | cons c2 cs2 => simp [dropTrailDash] at hconn
        rcases h with ⟨h1, -⟩
        simp only [Bool.not_eq_true', Bool.and_eq_false_iff] at h1
        rcases h1 with h1 | h1
        · exact h1
        · rw [hb] at h1; simp at h1
      simpa using hba
    · rw [List.getLast?_cons_cons, ← hconn]
      exact htail

theorem toLower_fix {c : Char} (h : slugCharOrDash c = true) : Char.toLower c = c := by
  have hn : (97 ≤ c.toNat ∧ c.toNat ≤ 122) ∨ (48 ≤ c.toNat ∧ c.toNat ≤ 57) ∨
      c.toNat = 45 := by
    simp only [slugCharOrDash, isSlugChar, Bool.or_eq_true, Bool.and_eq_true,
      decide_eq_true_eq, beq_iff_eq] at h
    rcases h with (h | h) | h
    · exact Or.inl h
    · exact Or.inr (Or.inl h)
    · subst h; exact Or.inr (Or.inr rfl)
  rw [Char.toLower]
  rw [if_neg (by omega)]

theorem map_toLower_fix {l : List Char} (h : l.all slugCharOrDash = true) :
    l.map Char.toLower = l := by
  induction l with
  | nil => rfl
  | cons c cs ih =>
    rw [List.all_cons, Bool.and_eq_true] at h
    rw [List.map_cons, toLower_fix h.1, ih h.2]

theorem dashRuns_fix :
    ∀ l : List Char, l.all slugCharOrDash = true → noDoubleDash l = true →
      dashRuns l = l := by
  intro l
  induction l using dashRuns.induct with
  | case1 => intro _ _; simp [dashRuns]
  | case2 c cs hslug ih =>
    intro hall hnd
    rw [List.all_cons, Bool.and_eq_true] at hall
    rw [dashRuns, if_pos hslug, ih hall.2 (noDoubleDash_tail hnd)]
  | case3 c cs hslug ih =>
    intro hall hnd
    rw [List.all_cons, Bool.and_eq_true] at hall
    have hc : c = '-' := by
      have h1 := hall.1
      simp only [slugCharOrDash, Bool.or_eq_true, beq_iff_eq] at h1
      rcases h1 with h1 | h1
      · exact absurd h1 (by simpa using hslug)
      · exact h1
    have hdw : cs.dropWhile (fun d => !isSlugChar d) = cs := by
      cases cs with
      | nil => rfl
      | cons b rest =>
        have hb : b ≠ '-' := by
          subst hc
          rw [noDoubleDash, Bool.and_eq_true] at hnd
          rcases hnd with ⟨h1, -⟩
          simp only [Bool.not_eq_true', Bool.and_eq_false_iff] at h1
          rcases h1 with h1 | h1
          · simp at h1
          · simpa using h1
        have hbslug : isSlugChar b = true := by
          have h2 : slugCharOrDash b = true := by
            rw [List.all_cons, Bool.and_eq_true] at hall
            exact hall.2.1
          simp only [slugCharOrDash, Bool.or_eq_true, beq_iff_eq] at h2
          rcases h2 with h2 | h2
          · exact h2
          · exact absurd h2 hb
        rw [List.dropWhile_cons]
        rw [if_neg (by simp [hbslug])]
    rw [hdw] at ih
    rw [dashRuns, if_neg hslug, hdw]
    rw [ih hall.2 (noDoubleDash_tail hnd), hc]

theorem dropLeadDash_fix {l : List Char} (h : (l.head? == some '-') = false) :
    dropLeadDash l = l := by
  cases l with
  | nil => rfl
  | cons c rest =>
    have hc : c ≠ '-' := by
      rw [List.head?_cons] at h
      simpa using h
    simp only [dropLeadDash, if_neg hc]

theorem dropTrailDash_fix :
    ∀ l : List Char, (l.getLast? == some '-') = false → dropTrailDash l = l := by
  intro l
  induction l using dropTrailDash.induct with
  | case1 => intro _; rfl
  | case2 => intro h; simp at h
  | case3 c hc => intro _; simp [dropTrailDash, hc]
  | case4 a b cs ih =>
    intro h
    rw [List.getLast?_cons_cons] at h
    rw [dropTrailDash, ih h]

/-- C9: for every title `t`, `generateSlug t` contains only lowercase ASCII
letters, digits and hyphens, has no leading or trailing hyphen and no two
consecutive hyphens, and `generateSlug` is idempotent. -/
theorem generateSlug_wellFormed_idempotent (t : String) :
    (generateSlug t).data.all slugCharOrDash = true ∧
    noDoubleDash (generateSlug t).data = true ∧
    ((generateSlug t).data.head? == some '-') = false ∧
    ((generateSlug t).data.getLast? == some '-') = false ∧
    generateSlug (generateSlug t) = generateSlug t := by
  have hr_all := dashRuns_all_slugCharOrDash (jsToLowerCase t).data
  have hr_nd := noDoubleDash_dashRuns (jsToLowerCase t).data
  have h1_all := dropLeadDash_all hr_all
  have h1_nd := dropLeadDash_noDoubleDash hr_nd
  have h1_head := dropLeadDash_head hr_nd
  have h2_all := dropTrailDash_all _ h1_all
  have h2_nd := dropTrailDash_noDoubleDash _ h1_nd
  have h2_last := dropTrailDash_getLast _ h1_nd
  have hdata : (generateSlug t).data =
      dropTrailDash (dropLeadDash (dashRuns (jsToLowerCase t).data)) := rfl
  have h2_head : (((generateSlug t).data).head? == some '-') = false := by
    rw [hdata]
    rcases dropTrailDash_head (dropLeadDash (dashRuns (jsToLowerCase t).data)) with
      heq | heq
    · rw [heq]; exact h1_head
    · rw [heq]; simp
  have hg_all : (generateSlug t).data.all slugCharOrDash = true := by
    rw [hdata]; exact h2_all
  have hg_nd : noDoubleDash (generateSlug t).data = true := by
    rw [hdata]; exact h2_nd
  have hg_last : ((generateSlug t).data.getLast? == some '-') = false := by
    rw [hdata]; exact h2_last
  refine ⟨hg_all, hg_nd, h2_head, hg_last, ?_⟩
  show (⟨dropTrailDash (dropLeadDash (dashRuns
    ((generateSlug t).data.map Char.toLower)))⟩ : String) = generateSlug t
  rw [map_toLower_fix hg_all]
  rw [dashRuns_fix _ hg_all hg_nd]
  rw [dropLeadDash_fix h2_head]
  rw [dropTrailDash_fix _ hg_last]

/-! ## Shared string helpers -/

/-- `.replace(/\/+/g, '/')`: every maximal run of slashes becomes one slash. -/
def collapseSlashes : List Char → List Char
  | [] => []
  | c :: cs =>
    if c = '/' then '/' :: collapseSlashes (cs.dropWhile (fun d => d = '/'))
    else c :: collapseSlashes cs
termination_by l => l.length
decreasing_by
  · have h := length_dropWhile_le (fun d : Char => d = '/') cs
    simp only [List.length_cons]
    omega
  · simp

/-- String wrapper for `collapseSlashes`. -/
def collapseSlashesStr (s : String) : String :=
  ⟨collapseSlashes s.data⟩

/-- `String.prototype.startsWith`. -/
def jsStartsWith (s pre : String) : Bool :=
  pre.data.isPrefixOf s.data

/-! ## Base64 and UTF-8 (Buffer.from(x).toString of base64)

`Buffer.from` on a string encodes UTF-8; on an ArrayBuffer it takes the raw
bytes.  Bytes are modelled as `Nat` values below 256. -/

/-- The base64 alphabet. -/
def base64Alphabet : List Char :=
  "ABCDEFGHIJKLMNOPQRSTUVWXYZabcdefghijklmnopqrstuvwxyz0123456789+/".data

/-- The base64 digit for a 6-bit value. -/
def base64Char (n : Nat) : Char :=
  base64Alphabet.getD n '='

/-- Standard base64 encoding of a byte list, three bytes to four digits,
padded with `=`. -/
def base64Chunks : List Nat → List Char
  | a :: b :: c :: rest =>
    base64Char (a / 4) :: base64Char ((a % 4) * 16 + b / 16) ::
    base64Char ((b % 16) * 4 + c / 64) :: base64Char (c % 64) ::
    base64Chunks rest
  | [a, b] =>
    [base64Char (a / 4), base64Char ((a % 4) * 16 + b / 16),
     base64Char ((b % 16) * 4), '=']
  | [a] =>
    [base64Char (a / 4), base64Char ((a % 4) * 16), '=', '=']
  | [] => []

/-- Base64 encoding as a string. -/
def base64Encode (bytes : List Nat) : String :=
  ⟨base64Chunks bytes⟩

/-- UTF-8 encoding of one character. -/
def utf8Encode (c : Char) : List Nat :=
  let n := c.toNat
  if n < 128 then [n]
  else if n < 2048 then [192 + n / 64, 128 + n % 64]
  else if n < 65536 then [224 + n / 4096, 128 + (n / 64) % 64, 128 + n % 64]
  else [240 + n / 262144, 128 + (n / 4096) % 64, 128 + (n / 64) % 64, 128 + n % 64]

/-- UTF-8 bytes of a string. -/
def utf8Bytes (s : String) : List Nat :=
  s.data.flatMap utf8Encode

/-- `Buffer.from(content).toString(base64)` for a JS string. -/
def stringToBase64 (s : String) : String :=
  base64Encode (utf8Bytes s)

/-! ## GitHub remote model (src/services/github-service.ts)

The remote repository is a single-repo state: a list of branches
(name, head sha), a list of files keyed by (branch, path) holding the
uploaded base64 payload, and a list of pull requests.  Every endpoint call
is appended to `log`, so theorems can speak about which API calls a flow
performs and in which order.  Endpoint semantics (error cases and messages)
are modelled from the documented GitHub REST behaviour; commit-level
details (file snapshots inherited from the base branch at ref creation)
are not tracked, and no claim depends on them. -/

/-- `Repository` from src/settings/settings.ts. -/
structure Repository where
  name : String
  owner : String
  baseBranch : String
  targetPath : String
deriving Repr, DecidableEq

/-- `CreatePROptions` from src/services/github-service.ts: exactly the seven
fields that `createPullRequest` destructures. -/
structure CreatePROptions where
  repository : Repository
  filename : String
  content : String
  title : String
  body : String
  commitMessage : String
  branchName : String
deriving Repr

/-- An error raised by a remote API call; `message` is `error.message`. -/
structure ApiError where
  message : String
deriving Repr, DecidableEq

/-- One GitHub API request, as recorded in the remote log. -/
inductive ApiCall where
  | getRef (ref : String)
  | createRef (ref : String) (sha : String)
  | putFile (branch : String) (path : String)
  | createPull (head : String) (base : String)
deriving Repr, DecidableEq

/-- A pull request held by the remote. -/
structure PullRequest where
  number : Nat
  title : String
  body : String
  head : String
  base : String
deriving Repr, DecidableEq

/-- The remote repository state. -/
structure RemoteState where
  branches : List (String × String)
  files : List (String × String × String)
  pulls : List PullRequest
  log : List ApiCall
deriving Repr

/-- The head sha of a branch, when the branch exists. -/
def findBranch (st : RemoteState) (b : String) : Option String :=
  (st.branches.find? (fun p => p.1 == b)).map (fun p => p.2)

/-- The stored content of a file on a branch, when present. -/
def findFile (st : RemoteState) (branch path : String) : Option String :=
  (st.files.find? (fun f => f.1 == branch && f.2.1 == path)).map (fun f => f.2.2)

/-- The html_url of a pull request, per the GitHub API shape. -/
def pullHtmlUrl (owner repo : String) (n : Nat) : String :=
  "https://github.com/" ++ owner ++ "/" ++ repo ++ "/pull/" ++ toString n

/-- Strip a literal prefix from a string, when present. -/
def stripPrefixStr (pre s : String) : Option String :=
  if pre.data.isPrefixOf s.data then some ⟨s.data.drop pre.data.length⟩ else none

/-- `octokit.git.getRef`: resolve `heads/<branch>` to its head sha;
404 when the ref does not exist. -/
def apiGetRef (st : RemoteState) (ref : String) :
    Except ApiError String × RemoteState :=
  let st1 := { st with log := st.log ++ [ApiCall.getRef ref] }
  match stripPrefixStr "heads/" ref with
  | some b =>
    match findBranch st b with
    | some sha => (Except.ok sha, st1)
    | none => (Except.error ⟨"Not Found"⟩, st1)
  | none => (Except.error ⟨"Not Found"⟩, st1)

/-- `octokit.git.createRef`: create `refs/heads/<branch>` at a sha; the
documented behaviour rejects a ref that already exists. -/
def apiCreateRef (st : RemoteState) (ref sha : String) :
    Except ApiError Unit × RemoteState :=
  let st1 := { st with log := st.log ++ [ApiCall.createRef ref sha] }
  match stripPrefixStr "refs/heads/" ref with
  | some b =>
    match findBranch st b with
    | some _ => (Except.error ⟨"Reference already exists"⟩, st1)
    | none =>
      (Except.ok (), { st1 with branches := st1.branches ++ [(b, sha)] })
  | none => (Except.error ⟨"Reference name is not well formed"⟩, st1)

/-- `octokit.repos.createOrUpdateFileContents` without a `sha` parameter:
creates the file; the documented behaviour rejects an update of an existing
path when no blob sha is supplied. -/
def apiPutFile (st : RemoteState) (path message content branch : String) :
    Except ApiError Unit × RemoteState :=
  let st1 := { st with log := st.log ++ [ApiCall.putFile branch path] }
  match findBranch st branch with
  | none => (Except.error ⟨"Branch not found"⟩, st1)
  | some _ =>
    match findFile st branch path with
    | some _ => (Except.error ⟨"Invalid request. sha was not supplied."⟩, st1)
    | none =>
      (Except.ok (), { st1 with files := st1.files ++ [(branch, path, content)] })

/-- `octokit.pulls.create`: create a pull request from `head` into `base`;
the documented behaviour rejects a missing head branch and a duplicate open
pull request for the same head and base. -/
def apiCreatePull (st : RemoteState) (owner repo title body head base : String) :
    Except ApiError String × RemoteState :=
  let st1 := { st with log := st.log ++ [ApiCall.createPull head base] }
  match findBranch st head with
  | none => (Except.error ⟨"Validation Failed: head does not exist"⟩, st1)
  | some _ =>
    match findBranch st base with
    | none => (Except.error ⟨"Validation Failed: base does not exist"⟩, st1)
    | some _ =>
      if st.pulls.any (fun p => p.head == head && p.base == base) then
        (Except.error ⟨"Validation Failed: a pull request already exists"⟩, st1)
      else
        let n := st.pulls.length + 1
        (Except.ok (pullHtmlUrl owner repo n),
         { st1 with pulls := st1.pulls ++ [⟨n, title, body, head, base⟩] })

/-- The body of `GitHubService.createPullRequest` before the catch block
(src/services/github-service.ts lines 42-83): get the base branch head,
create the new branch there, upload the content file, open the pull
request.  There is no branch-existence check and no media upload. -/
def createPullRequestRaw (o : CreatePROptions) (st : RemoteState) :
    Except ApiError String × RemoteState :=
  let r := o.repository
  match apiGetRef st ("heads/" ++ r.baseBranch) with
  | (Except.error e, st1) => (Except.error e, st1)
  | (Except.ok baseSha, st1) =>
    match apiCreateRef st1 ("refs/heads/" ++ o.branchName) baseSha with
    | (Except.error e, st2) => (Except.error e, st2)
    | (Except.ok _, st2) =>
      let filePath :=
        if r.targetPath ≠ "" then collapseSlashesStr (r.targetPath ++ "/" ++ o.filename)
        else o.filename
      match apiPutFile st2 filePath o.commitMessage (stringToBase64 o.content)
          o.branchName with
      | (Except.error e, st3) => (Except.error e, st3)
      | (Except.ok _, st3) =>
        match apiCreatePull st3 r.owner r.name o.title o.body o.branchName
            r.baseBranch with
        | (Except.error e, st4) => (Except.error e, st4)
        | (Except.ok url, st4) => (Except.ok url, st4)

/-- `GitHubService.createPullRequest` (lines 39-88): the raw flow wrapped in
the catch block that rethrows `Failed to create PR: ` + the message. -/
def createPullRequest (o : CreatePROptions) (st : RemoteState) :
    Except String String × RemoteState :=
  match createPullRequestRaw o st with
  | (Except.ok url, st1) => (Except.ok url, st1)
  | (Except.error e, st1) => (Except.error ("Failed to create PR: " ++ e.message), st1)

/-! ## listRepositories (src/services/github-service.ts lines 93-109) -/

/-- A repository record as returned by the GitHub list endpoint; only the
fields the plugin reads, plus representative extra payload fields. -/
structure FullRepo where
  full_name : String
  default_branch : String
  descriptionText : String
  fork : Bool
deriving Repr, DecidableEq

/-- The pair `listRepositories` keeps for each repository. -/
structure RepoInfo where
  full_name : String
  default_branch : String
deriving Repr, DecidableEq

/-- `octokit.repos.listForAuthenticatedUser` with `per_page`: the endpoint
returns at most `per_page` entries (the first page), per its documented
pagination semantics. -/
def listForAuthenticatedUser (account : List FullRepo) (perPage : Nat) :
    List FullRepo :=
  account.take perPage

/-- `GitHubService.listRepositories`: the call is made with `per_page: 100`;
a failed call is caught and yields `[]`, a successful one is mapped down to
`full_name` and `default_branch`. -/
def listRepositories (response : Except ApiError (List FullRepo)) : List RepoInfo :=
  match response with
  | Except.error _ => []
  | Except.ok data =>
    data.map (fun repo => { full_name := repo.full_name,
                            default_branch := repo.default_branch })

/-! ### Concrete sample inputs used by counterexamples and witnesses -/

/-- A configured repository. -/
def sampleRepo : Repository :=
  { name := "blog", owner := "alice", baseBranch := "main",
    targetPath := "content/posts" }

/-- Options for one publish invocation. -/
def sampleOpts : CreatePROptions :=
  { repository := sampleRepo, filename := "post.md", content := "hello",
    title := "T", body := "B", commitMessage := "add post",
    branchName := "post/hello" }

/-- A remote with no branches at all. -/
def emptyRemote : RemoteState := ⟨[], [], [], []⟩

/-- A remote holding only the base branch `main`. -/
def mainRemote : RemoteState := ⟨[("main", "sha0")], [], [], []⟩

/-- A remote where the branch `post/hello` already exists next to `main`,
as it does after a partially completed earlier invocation. -/
def mainAndBranchRemote : RemoteState :=
  ⟨[("main", "sha0"), ("post/hello", "sha0")], [], [], []⟩

/-! ### Lemmas about the remote model -/

theorem stripPrefixStr_append (pre b : String) :
    stripPrefixStr pre (pre ++ b) = some b := by
  unfold stripPrefixStr
  rw [String.data_append]
  rw [if_pos (by rw [List.isPrefixOf_iff_prefix]; exact List.prefix_append _ _)]
  rw [List.drop_left]

theorem findBranch_set_log (st : RemoteState) (b : String) (lg : List ApiCall) :
    findBranch { st with log := lg } b = findBranch st b := rfl

theorem apiGetRef_log (st : RemoteState) (ref : String) :
    (apiGetRef st ref).2.log = st.log ++ [ApiCall.getRef ref] := by
  unfold apiGetRef
  split
  · split <;> rfl
  · rfl

theorem apiCreateRef_log (st : RemoteState) (ref sha : String) :
    (apiCreateRef st ref sha).2.log = st.log ++ [ApiCall.createRef ref sha] := by
  unfold apiCreateRef
  split
  · split <;> rfl
  · rfl

theorem apiPutFile_log (st : RemoteState) (path message content branch : String) :
    (apiPutFile st path message content branch).2.log =
      st.log ++ [ApiCall.putFile branch path] := by
  unfold apiPutFile
  split
  · rfl
  · split <;> rfl

theorem apiCreatePull_log (st : RemoteState) (owner repo title body head base : String) :
    (apiCreatePull st owner repo title body head base).2.log =
      st.log ++ [ApiCall.createPull head base] := by
  unfold apiCreatePull
  split
  · rfl
  · split
    · rfl
    · split <;> rfl

theorem apiGetRef_pulls (st : RemoteState) (ref : String) :
    (apiGetRef st ref).2.pulls = st.pulls := by
  unfold apiGetRef
  split
  · split <;> rfl
  · rfl

theorem apiCreateRef_pulls (st : RemoteState) (ref sha : String) :
    (apiCreateRef st ref sha).2.pulls = st.pulls := by
  unfold apiCreateRef
  split
  · split <;> rfl
  · rfl

theorem apiPutFile_pulls (st : RemoteState) (path message content branch : String) :
    (apiPutFile st path message content branch).2.pulls = st.pulls := by
  unfold apiPutFile
  split
  · rfl
  · split <;> rfl

theorem apiCreatePull_ok {st : RemoteState} {owner repo title body head base url : String}
    {st1 : RemoteState}
    (h : apiCreatePull st owner repo title body head base = (Except.ok url, st1)) :
    st1.pulls = st.pulls ++ [⟨st.pulls.length + 1, title, body, head, base⟩] ∧
    url = pullHtmlUrl owner repo (st.pulls.length + 1) := by
  unfold apiCreatePull at h
  split at h
  · simp at h
  · split at h
    · simp at h
    · split at h
      · simp at h
      · rw [Prod.mk.injEq] at h
        obtain ⟨h1, h2⟩ := h
        cases h1
        subst h2
        exact ⟨rfl, rfl⟩

/-- `heads/<b>` resolution in terms of `findBranch`. -/
theorem apiGetRef_heads (st : RemoteState) (b : String) :
    apiGetRef st ("heads/" ++ b) =
      (match findBranch st b with
       | some sha => Except.ok sha
       | none => Except.error ⟨"Not Found"⟩,
       { st with log := st.log ++ [ApiCall.getRef ("heads/" ++ b)] }) := by
  unfold apiGetRef
  rw [stripPrefixStr_append]
  dsimp only
  rcases h : findBranch st b with _ | sha <;> rfl

/-- `refs/heads/<b>` creation in terms of `findBranch`. -/
theorem apiCreateRef_refs (st : RemoteState) (b sha : String) :
    apiCreateRef st ("refs/heads/" ++ b) sha =
      (match findBranch st b with
       | some _ => (Except.error ⟨"Reference already exists"⟩,
           { st with log := st.log ++ [ApiCall.createRef ("refs/heads/" ++ b) sha] })
       | none => (Except.ok (),
           { st with log := st.log ++ [ApiCall.createRef ("refs/heads/" ++ b) sha],
                     branches := st.branches ++ [(b, sha)] })) := by
  unfold apiCreateRef
  rw [stripPrefixStr_append]

/-! ### Claim C4 -/

/-- C4: whenever a remote API call inside `createPullRequest` fails, the
function rethrows `Failed to create PR: ` followed by the underlying error
message; every invocation either returns a pull-request URL or throws such
a translated error, never a raw one. -/
theorem createPullRequest_error_translation (o : CreatePROptions) (st : RemoteState) :
    (∀ e st1, createPullRequestRaw o st = (Except.error e, st1) →
      createPullRequest o st =
        (Except.error ("Failed to create PR: " ++ e.message), st1)) ∧
    ((∃ url st1, createPullRequest o st = (Except.ok url, st1)) ∨
     (∃ m st1, createPullRequest o st =
        (Except.error ("Failed to create PR: " ++ m), st1))) := by
  constructor
  · intro e st1 h
    unfold createPullRequest
    rw [h]
  · rcases hr : createPullRequestRaw o st with ⟨r, s⟩
    rcases r with e | url
    · right
      refine ⟨e.message, s, ?_⟩
      unfold createPullRequest
      rw [hr]
    · left
      refine ⟨url, s, ?_⟩
      unfold createPullRequest
      rw [hr]

/-- Witness for C4: on a remote without the base branch the first call
fails with Not Found and the translated error comes back. -/
theorem createPullRequest_error_translation_witness :
    createPullRequest sampleOpts emptyRemote =
      (Except.error "Failed to create PR: Not Found",
       { emptyRemote with log := [ApiCall.getRef "heads/main"] }) :=
  (createPullRequest_error_translation sampleOpts emptyRemote).1
    ⟨"Not Found"⟩ _ rfl

/-! ### Claim C5 -/

/-- C5: a successful `createPullRequest` appends exactly one pull request
whose head is the supplied branch name and whose base is the repository's
configured base branch, and returns that pull request's html_url. -/
theorem createPullRequest_success_shape (o : CreatePROptions) (st : RemoteState)
    (url : String) (st1 : RemoteState)
    (h : createPullRequest o st = (Except.ok url, st1)) :
    ∃ p : PullRequest,
      st1.pulls = st.pulls ++ [p] ∧ p.head = o.branchName ∧
      p.base = o.repository.baseBranch ∧ p.title = o.title ∧ p.body = o.body ∧
      url = pullHtmlUrl o.repository.owner o.repository.name p.number := by
  unfold createPullRequest at h
  rcases hr : createPullRequestRaw o st with ⟨r, s⟩
  rw [hr] at h
  rcases r with e | url0
  · simp at h
  · rw [Prod.mk.injEq] at h
    obtain ⟨h1, h2⟩ := h
    cases h1
    subst h2
    unfold createPullRequestRaw at hr
    dsimp only at hr
    split at hr
    · simp at hr
    · rename_i baseSha stA hget
      split at hr
      · simp at hr
      · rename_i u stB hcreate
        split at hr
        · simp at hr
        · rename_i u2 stC hput
          split at hr
          · simp at hr
          · rename_i url2 stD hpull
            rw [Prod.mk.injEq] at hr
            obtain ⟨hr1, hr2⟩ := hr
            cases hr1
            subst hr2
            have hpA : stA.pulls = st.pulls := by
              have := congrArg (fun x => x.2.pulls) hget
              simpa [apiGetRef_pulls] using this.symm
            have hpB : stB.pulls = stA.pulls := by
              have := congrArg (fun x => x.2.pulls) hcreate
              simpa [apiCreateRef_pulls] using this.symm
            have hpC : stC.pulls = stB.pulls := by
              have := congrArg (fun x => x.2.pulls) hput
              simpa [apiPutFile_pulls] using this.symm
            obtain ⟨hps, hurl⟩ := apiCreatePull_ok hpull
            refine ⟨⟨stC.pulls.length + 1, o.title, o.body, o.branchName,
              o.repository.baseBranch⟩, ?_, rfl, rfl, rfl, rfl, ?_⟩
            · rw [hps, hpC, hpB, hpA]
            · exact hurl

/-- Witness for C5: the sample invocation on a remote holding only `main`
succeeds and creates pull request number 1. -/
theorem createPullRequest_success_shape_witness :
    ∃ p : PullRequest,
      (createPullRequest sampleOpts mainRemote).2.pulls = mainRemote.pulls ++ [p] ∧
      p.head = sampleOpts.branchName ∧
      p.base = sampleOpts.repository.baseBranch ∧
      p.title = sampleOpts.title ∧ p.body = sampleOpts.body ∧
      "https://github.com/alice/blog/pull/1" =
        pullHtmlUrl sampleOpts.repository.owner sampleOpts.repository.name p.number :=
  createPullRequest_success_shape sampleOpts mainRemote
    "https://github.com/alice/blog/pull/1" _ rfl

/-! ### Claim C2 -/

/-- Counterexample to C2: the identical publish invocation run twice.  The
first run succeeds; the second fails with the translated
`Reference already exists` error, i.e. the duplicate invocation fails
precisely because the branch already exists. -/
theorem createPullRequest_second_run_fails :
    (createPullRequest sampleOpts mainRemote).1 =
      Except.ok "https://github.com/alice/blog/pull/1" ∧
    (createPullRequest sampleOpts (createPullRequest sampleOpts mainRemote).2).1 =
      Except.error "Failed to create PR: Reference already exists" :=
  ⟨rfl, rfl⟩

/-- C2 (amended): an invocation whose branch name already exists on the
remote does not complete: branch creation is attempted unconditionally and
the remote rejection is rethrown as
`Failed to create PR: Reference already exists`.  The pipeline therefore
does not tolerate duplicate invocation. -/
theorem createPullRequest_existing_branch_fails (o : CreatePROptions) (st : RemoteState)
    (hbase : (findBranch st o.repository.baseBranch).isSome = true)
    (hbranch : (findBranch st o.branchName).isSome = true) :
    (createPullRequest o st).1 =
      Except.error "Failed to create PR: Reference already exists" := by
  rcases hb : findBranch st o.repository.baseBranch with _ | sha
  · rw [hb] at hbase; simp at hbase
  rcases hbr : findBranch st o.branchName with _ | sha2
  · rw [hbr] at hbranch; simp at hbranch
  unfold createPullRequest createPullRequestRaw
  dsimp only
  rw [apiGetRef_heads, hb]
  dsimp only
  rw [apiCreateRef_refs, findBranch_set_log, hbr]
  rfl

/-- Witness for the amended C2 on a remote where `post/hello` is left over
from an earlier partial run. -/
theorem createPullRequest_existing_branch_fails_witness :
    (createPullRequest sampleOpts mainAndBranchRemote).1 =
      Except.error "Failed to create PR: Reference already exists" :=
  createPullRequest_existing_branch_fails sampleOpts mainAndBranchRemote rfl rfl

/-! ### Claim C3 -/

/-- Counterexample to C3: on a remote where the target branch already
exists, the pipeline performs no API call that reads that branch before
creating it — the log holds only the base-branch read followed directly by
the `createRef` attempt on the existing branch — and the invocation fails
instead of skipping re-creation. -/
theorem createPullRequest_attempts_recreate_existing_branch :
    (createPullRequest sampleOpts mainAndBranchRemote).2.log =
      [ApiCall.getRef "heads/main",
       ApiCall.createRef "refs/heads/post/hello" "sha0"] ∧
    (createPullRequest sampleOpts mainAndBranchRemote).1 =
      Except.error "Failed to create PR: Reference already exists" :=
  ⟨rfl, rfl⟩

/-- C3 (amended): the publish pipeline performs no branch-existence check:
whenever the base branch resolves, the very next API call is the
unconditional `createRef` for the new branch, and no later call reads or
creates any ref either — duplicate-branch detection is left entirely to
the remote rejection of `createRef`. -/
theorem createPullRequest_no_branch_check (o : CreatePROptions) (st : RemoteState)
    (hbase : (findBranch st o.repository.baseBranch).isSome = true) :
    ∃ sha rest,
      (createPullRequest o st).2.log =
        st.log ++ ApiCall.getRef ("heads/" ++ o.repository.baseBranch) ::
          ApiCall.createRef ("refs/heads/" ++ o.branchName) sha :: rest ∧
      (∀ r, ¬ ApiCall.getRef r ∈ rest) ∧
      (∀ r s2, ¬ ApiCall.createRef r s2 ∈ rest) := by
  rcases hb : findBranch st o.repository.baseBranch with _ | sha
  · rw [hb] at hbase; simp at hbase
  rcases hfull : createPullRequest o st with ⟨res, stF⟩
  dsimp only
  unfold createPullRequest at hfull
  rcases hr : createPullRequestRaw o st with ⟨r, s⟩
  rw [hr] at hfull
  have hsF : stF = s := by
    rcases r with e | u <;> · rw [Prod.mk.injEq] at hfull; exact hfull.2.symm
  subst hsF
  unfold createPullRequestRaw at hr
  dsimp only at hr
  split at hr
  · rename_i e stA hget
    rw [apiGetRef_heads, hb] at hget
    simp at hget
  · rename_i baseSha stA hget
    have hlogA : stA.log = st.log ++
        [ApiCall.getRef ("heads/" ++ o.repository.baseBranch)] := by
      have h2 := congrArg (fun x => x.2.log) hget
      dsimp only at h2
      rw [apiGetRef_log] at h2
      exact h2.symm
    split at hr
    · -- createRef rejected: the attempt was made and the flow stops
      rename_i e stB hcreate
      have hlogB : stB.log = stA.log ++
          [ApiCall.createRef ("refs/heads/" ++ o.branchName) baseSha] := by
        have h2 := congrArg (fun x => x.2.log) hcreate
        dsimp only at h2
        rw [apiCreateRef_log] at h2
        exact h2.symm
      rw [Prod.mk.injEq] at hr
      rw [← hr.2]
      refine ⟨baseSha, [], ?_, by simp, by simp⟩
      rw [hlogB, hlogA]
      simp
    · rename_i u stB hcreate
      have hlogB : stB.log = stA.log ++
          [ApiCall.createRef ("refs/heads/" ++ o.branchName) baseSha] := by
        have h2 := congrArg (fun x => x.2.log) hcreate
        dsimp only at h2
        rw [apiCreateRef_log] at h2
        exact h2.symm
      split at hr
      · rename_i e stC hput
        have hlogC := congrArg (fun x => x.2.log) hput
        dsimp only at hlogC
        rw [apiPutFile_log] at hlogC
        rw [Prod.mk.injEq] at hr
        rw [← hr.2]
        refine ⟨baseSha, [ApiCall.putFile o.branchName
          (if o.repository.targetPath ≠ "" then
              collapseSlashesStr (o.repository.targetPath ++ "/" ++ o.filename)
            else o.filename)], ?_, ?_, ?_⟩
        · rw [← hlogC, hlogB, hlogA]
          simp
        · simp
        · simp
      · rename_i u2 stC hput
        have hlogC := congrArg (fun x => x.2.log) hput
        dsimp only at hlogC
        rw [apiPutFile_log] at hlogC
        split at hr
        · rename_i e stD hpull
          have hlogD := congrArg (fun x => x.2.log) hpull
          dsimp only at hlogD
          rw [apiCreatePull_log] at hlogD
          rw [Prod.mk.injEq] at hr
          rw [← hr.2]
          refine ⟨baseSha, [ApiCall.putFile o.branchName
            (if o.repository.targetPath ≠ "" then
              collapseSlashesStr (o.repository.targetPath ++ "/" ++ o.filename)
            else o.filename),
            ApiCall.createPull o.branchName o.repository.baseBranch], ?_, ?_, ?_⟩
          · rw [← hlogD, ← hlogC, hlogB, hlogA]
            simp
          · simp
          · simp
        · rename_i u3 stD hpull
          have hlogD := congrArg (fun x => x.2.log) hpull
          dsimp only at hlogD
          rw [apiCreatePull_log] at hlogD
          rw [Prod.mk.injEq] at hr
          rw [← hr.2]
          refine ⟨baseSha, [ApiCall.putFile o.branchName
            (if o.repository.targetPath ≠ "" then
              collapseSlashesStr (o.repository.targetPath ++ "/" ++ o.filename)
            else o.filename),
            ApiCall.createPull o.branchName o.repository.baseBranch], ?_, ?_, ?_⟩
          · rw [← hlogD, ← hlogC, hlogB, hlogA]
            simp
          · simp
          · simp

/-- Witness for the amended C3 on the sample remote holding only `main`. -/
theorem createPullRequest_no_branch_check_witness :
    ∃ sha rest,
      (createPullRequest sampleOpts mainRemote).2.log =
        mainRemote.log ++ ApiCall.getRef ("heads/" ++ sampleOpts.repository.baseBranch) ::
          ApiCall.createRef ("refs/heads/" ++ sampleOpts.branchName) sha :: rest ∧
      (∀ r, ¬ ApiCall.getRef r ∈ rest) ∧
      (∀ r s2, ¬ ApiCall.createRef r s2 ∈ rest) :=
  createPullRequest_no_branch_check sampleOpts mainRemote rfl

/-! ### Claim C10 -/

/-- C10: `listRepositories` is total (never throws): a failed call yields
the empty list; a successful call with the requested `per_page: 100`
returns at most 100 entries, each reduced to the repository's `full_name`
and `default_branch`. -/
theorem listRepositories_spec :
    (∀ e, listRepositories (Except.error e) = []) ∧
    (∀ account : List FullRepo,
      listRepositories (Except.ok (listForAuthenticatedUser account 100)) =
        (account.take 100).map
          (fun r => ({ full_name := r.full_name,
                       default_branch := r.default_branch } : RepoInfo))) ∧
    (∀ account : List FullRepo,
      (listRepositories (Except.ok (listForAuthenticatedUser account 100))).length
        ≤ 100) := by
  refine ⟨fun e => rfl, fun account => rfl, fun account => ?_⟩
  simp only [listRepositories, listForAuthenticatedUser, List.length_map,
    List.length_take]
  omega

/-! ## MediaHandler (src/services/github-service.ts, MediaHandler)

`extractMediaReferences` runs three global regexes over the note content:
Obsidian embeds, markdown images, HTML img tags.  Each regex is embedded
as an executable scanner with JavaScript `exec` semantics: matches are
found left to right, the scan resumes after each match, lazy quantifiers
take the shortest extent, greedy character classes the longest feasible
one, and `.` and the negated classes exclude nothing but what the regex
grammar says (in particular `.` excludes the four JS line terminators). -/

/-- A media reference: the matched text, the captured path, the alt text. -/
structure MediaReference where
  original : String
  path : String
  alt : String
deriving Repr, DecidableEq

/-- JavaScript line terminators, which `.` never matches. -/
def isLineTerm (c : Char) : Bool :=
  c = '\n' || c = '\r' || c = '\u2028' || c = '\u2029'

/-! ### Node path.basename and path.extname (posix), used for alt text -/

/-- `path.basename(p)`: the last segment after trailing slashes. -/
def nodeBasename (p : String) : String :=
  let t := p.data.reverse.dropWhile (fun c => c = '/')
  ⟨(t.takeWhile (fun c => c ≠ '/')).reverse⟩

/-- `path.extname(p)`: the suffix of the last segment from its final dot;
empty when there is no dot, the dot leads the segment, or the segment is
exactly `..` (matching the Node algorithm). -/
def nodeExtname (p : String) : String :=
  let b := (nodeBasename p).data
  let k := b.reverse.findIdx (fun c => c = '.')
  if k = b.length then ""
  else
    let i := b.length - 1 - k
    if i = 0 then ""
    else if b = ['.', '.'] then ""
    else ⟨b.drop i⟩

/-- `path.basename(p, ext)`: the last segment with a matching `ext` suffix
removed, with the Node corner cases (whole path equal to `ext` yields the
empty string, a segment equal to `ext` is kept whole). -/
def nodeBasenameExt (p ext : String) : String :=
  if ext = "" then nodeBasename p
  else if p = ext then ""
  else
    let b := nodeBasename p
    if b = ext then b
    else if ext.data.isSuffixOf b.data then
      ⟨b.data.take (b.data.length - ext.data.length)⟩
    else b

/-! ### Obsidian embeds: the scan of a global regex matching bang,
double open bracket, a lazy dot star capture, double close bracket -/

/-- Lazy search for the closing double bracket: the capture extends to the
first close, consuming only non-terminator characters. -/
def obFind : List Char → Option (List Char × List Char)
  | [] => none
  | ']' :: ']' :: rest => some ([], rest)
  | c :: rest =>
    if isLineTerm c then none
    else
      match obFind rest with
      | some (inner, r) => some (c :: inner, r)
      | none => none

theorem obFind_cons_eq {c : Char} {rest : List Char}
    (hc : ∀ rest2, c = ']' → rest = ']' :: rest2 → False) :
    obFind (c :: rest) =
      (if isLineTerm c then none
       else
         match obFind rest with
         | some (inner, r) => some (c :: inner, r)
         | none => none) := by
  rw [obFind]
  exact hc

theorem obFind_decomp :
    ∀ cs inner r, obFind cs = some (inner, r) → cs = inner ++ ']' :: ']' :: r := by
  intro cs
  induction cs using obFind.induct with
  | case1 => intro inner r h; simp [obFind] at h
  | case2 rest =>
    intro inner r h
    rw [obFind] at h
    rw [Option.some.injEq, Prod.mk.injEq] at h
    rw [← h.1, ← h.2]
    rfl
  | case3 c rest hc hterm =>
    intro inner r h
    rw [obFind_cons_eq hc, if_pos hterm] at h
    simp at h
  | case4 c rest hc hterm inner0 r0 hrec ih =>
    intro inner r h
    rw [obFind_cons_eq hc, if_neg hterm, hrec] at h
    rw [Option.some.injEq, Prod.mk.injEq] at h
    rw [← h.1, ← h.2]
    have h2 := ih inner0 r0 hrec
    rw [List.cons_append, ← h2]
  | case5 c rest hc hterm hrec ih =>
    intro inner r h
    rw [obFind_cons_eq hc, if_neg hterm, hrec] at h
    simp at h

theorem obFind_length {cs inner r : List Char} (h : obFind cs = some (inner, r)) :
    r.length + 2 ≤ cs.length := by
  have h2 := obFind_decomp cs inner r h
  subst h2
  simp

/-- The global scan for Obsidian embeds; the alt text is the file basename
without its extension, as computed with the Node path functions. -/
def scanObsidian : List Char → List MediaReference
  | '!' :: '[' :: '[' :: rest =>
    match h : obFind rest with
    | some (inner, r2) =>
      { original := ⟨'!' :: '[' :: '[' :: (inner ++ [']', ']'])⟩,
        path := ⟨inner⟩,
        alt := nodeBasenameExt ⟨inner⟩ (nodeExtname ⟨inner⟩) } :: scanObsidian r2
    | none => scanObsidian ('[' :: '[' :: rest)
  | _ :: cs => scanObsidian cs
  | [] => []
termination_by l => l.length
decreasing_by
  · have h2 := obFind_length h
    simp only [List.length_cons]
    omega
  · simp
  · simp

/-! ### Markdown images: the scan of a global regex matching bang, open
bracket, lazy alt capture, close bracket, open paren, lazy path capture,
close paren -/

/-- Lazy search for the closing paren of the path capture. -/
def mdFindPath : List Char → Option (List Char × List Char)
  | [] => none
  | ')' :: rest => some ([], rest)
  | c :: rest =>
    if isLineTerm c then none
    else
      match mdFindPath rest with
      | some (p, r) => some (c :: p, r)
      | none => none

/-- Lazy search for the alt capture followed by close bracket, open paren
and a successfully closed path; on a failed path the engine backtracks and
extends the alt capture past the close bracket. -/
def mdFindAlt : List Char → Option (List Char × List Char × List Char)
  | ']' :: '(' :: rest =>
    (match mdFindPath rest with
     | some (p, r) => some ([], p, r)
     | none =>
       -- the engine backtracks: the close bracket joins the alt capture,
       -- the open paren follows it (it is no terminator and opens no pair
       -- by itself), and the scan continues after both
       match mdFindAlt rest with
       | some (a, p, r) => some (']' :: '(' :: a, p, r)
       | none => none)
  | c :: rest =>
    if isLineTerm c then none
    else
      match mdFindAlt rest with
      | some (a, p, r) => some (c :: a, p, r)
      | none => none
  | [] => none

theorem mdFindPath_decomp :
    ∀ cs p r, mdFindPath cs = some (p, r) → cs = p ++ ')' :: r := by
  intro cs
  induction cs using mdFindPath.induct with
  | case1 => intro p r h; simp [mdFindPath] at h
  | case2 rest =>
    intro p r h
    rw [mdFindPath] at h
    rw [Option.some.injEq, Prod.mk.injEq] at h
    rw [← h.1, ← h.2]
    rfl
  | case3 c rest hc hterm =>
    intro p r h
    rw [mdFindPath, if_pos hterm] at h
    · simp at h
    · exact hc
  | case4 c rest hc hterm p0 r0 hrec ih =>
    intro p r h
    rw [mdFindPath, if_neg hterm, hrec] at h
    · rw [Option.some.injEq, Prod.mk.injEq] at h
      rw [← h.1, ← h.2]
      have h2 := ih p0 r0 hrec
      rw [List.cons_append, ← h2]
    · exact hc
  | case5 c rest hc hterm hrec ih =>
    intro p r h
    rw [mdFindPath, if_neg hterm, hrec] at h
    · simp at h
    · exact hc

theorem mdFindAlt_decomp :
    ∀ cs a p r, mdFindAlt cs = some (a, p, r) →
      cs = a ++ ']' :: '(' :: (p ++ ')' :: r) := by
  intro cs
  induction cs using mdFindAlt.induct with
  | case1 rest p0 r0 hpath =>
    intro a p r h
    rw [mdFindAlt, hpath] at h
    rw [Option.some.injEq, Prod.mk.injEq, Prod.mk.injEq] at h
    rw [← h.1, ← h.2.1, ← h.2.2]
    have h2 := mdFindPath_decomp rest p0 r0 hpath
    rw [List.nil_append, ← h2]
  | case2 rest hpath a0 p0 r0 hrec ih =>
    intro a p r h
    rw [mdFindAlt, hpath, hrec] at h
    rw [Option.some.injEq, Prod.mk.injEq, Prod.mk.injEq] at h
    rw [← h.1, ← h.2.1, ← h.2.2]
    have h2 := ih a0 p0 r0 hrec
    rw [List.cons_append, List.cons_append, ← h2]
  | case3 rest hpath hrec =>
    intro a p r h
    rw [mdFindAlt, hpath, hrec] at h
    simp at h
  | case4 c rest hc hterm =>
    intro a p r h
    rw [mdFindAlt, if_pos hterm] at h
    · simp at h
    · exact hc
  | case5 c rest hc hterm a0 p0 r0 hrec ih =>
    intro a p r h
    rw [mdFindAlt, if_neg hterm, hrec] at h
    · rw [Option.some.injEq, Prod.mk.injEq, Prod.mk.injEq] at h
      rw [← h.1, ← h.2.1, ← h.2.2]
      have h2 := ih a0 p0 r0 hrec
      rw [List.cons_append, ← h2]
    · exact hc
  | case6 c rest hc hterm hrec ih =>
    intro a p r h
    rw [mdFindAlt, if_neg hterm, hrec] at h
    · simp at h
    · exact hc
  | case7 => intro a p r h; simp [mdFindAlt] at h

theorem mdFindAlt_length {cs a p r : List Char}
    (h : mdFindAlt cs = some (a, p, r)) : r.length + 3 ≤ cs.length := by
  have h2 := mdFindAlt_decomp cs a p r h
  subst h2
  simp
  omega

/-- The global scan for markdown images. -/
def scanMarkdown : List Char → List MediaReference
  | '!' :: '[' :: rest =>
    match h : mdFindAlt rest with
    | some (a, p, r2) =>
      { original := ⟨'!' :: '[' :: (a ++ ']' :: '(' :: (p ++ [')']))⟩,
        path := ⟨p⟩, alt := ⟨a⟩ } :: scanMarkdown r2
    | none => scanMarkdown ('[' :: rest)
  | _ :: cs => scanMarkdown cs
  | [] => []
termination_by l => l.length
decreasing_by
  · have h2 := mdFindAlt_length h
    simp only [List.length_cons]
    omega
  · simp
  · simp

/-! ### HTML img tags: the scan of a global regex matching an img opener,
one or more non-gt characters, a src attribute capture, any non-gt
characters, an alt attribute capture, any non-gt characters and gt.
Every inner class excludes the closing angle bracket, so a match always
extends to the first one; the greedy classes with backtracking select the
rightmost src attribute that lets the remainder match and, within it, the
rightmost alt attribute. -/

/-- The tag body: everything up to the first closing angle bracket. -/
def takeToGt : List Char → Option (List Char × List Char)
  | [] => none
  | '>' :: rest => some ([], rest)
  | c :: rest =>
    match takeToGt rest with
    | some (b, r) => some (c :: b, r)
    | none => none

/-- An attribute value: everything up to the first double quote. -/
def quoteSplit : List Char → Option (List Char × List Char)
  | [] => none
  | '"' :: rest => some ([], rest)
  | c :: rest =>
    match quoteSplit rest with
    | some (q, r) => some (c :: q, r)
    | none => none

/-- All decompositions `cs = a ++ pat ++ b`, in left-to-right order of the
occurrence of `pat`. -/
def splitsOn (pat : List Char) : List Char → List (List Char × List Char)
  | [] => []
  | c :: rest =>
    (if pat.isPrefixOf (c :: rest) then [([], (c :: rest).drop pat.length)]
     else []) ++
    (splitsOn pat rest).map (fun pr => (c :: pr.1, pr.2))

/-- After the src value: the rightmost alt attribute whose value closes. -/
def imgChooseAlt (rest1 : List Char) : Option (List Char) :=
  ((splitsOn ("alt=\"".data) rest1).filterMap
    (fun pr => (quoteSplit pr.2).map (fun qr => qr.1))).getLast?

/-- Inside the tag body: the rightmost src attribute, preceded by at least
one character and holding a nonempty value, that lets the rest of the
pattern match; paired with the alt value it selects. -/
def imgChoose (body : List Char) : Option (List Char × List Char) :=
  ((splitsOn ("src=\"".data) body).filterMap
    (fun pr =>
      if pr.1 = [] then none
      else
        match quoteSplit pr.2 with
        | none => none
        | some (s, rest1) =>
          if s = [] then none
          else
            match imgChooseAlt rest1 with
            | none => none
            | some t => some (s, t))).getLast?

theorem takeToGt_decomp :
    ∀ cs b r, takeToGt cs = some (b, r) → cs = b ++ '>' :: r := by
  intro cs
  induction cs using takeToGt.induct with
  | case1 => intro b r h; simp [takeToGt] at h
  | case2 rest =>
    intro b r h
    rw [takeToGt] at h
    rw [Option.some.injEq, Prod.mk.injEq] at h
    rw [← h.1, ← h.2]
    rfl
  | case3 c rest hc b0 r0 hrec ih =>
    intro b r h
    rw [takeToGt, hrec] at h
    · rw [Option.some.injEq, Prod.mk.injEq] at h
      rw [← h.1, ← h.2]
      have h2 := ih b0 r0 hrec
      rw [List.cons_append, ← h2]
    · exact hc
  | case4 c rest hc hrec ih =>
    intro b r h
    rw [takeToGt, hrec] at h
    · simp at h
    · exact hc

theorem takeToGt_length {cs b r : List Char} (h : takeToGt cs = some (b, r)) :
    r.length + 1 ≤ cs.length := by
  have h2 := takeToGt_decomp cs b r h
  subst h2
  simp

theorem quoteSplit_decomp :
    ∀ cs q r, quoteSplit cs = some (q, r) → cs = q ++ '"' :: r := by
  intro cs
  induction cs using quoteSplit.induct with
  | case1 => intro q r h; simp [quoteSplit] at h
  | case2 rest =>
    intro q r h
    rw [quoteSplit] at h
    rw [Option.some.injEq, Prod.mk.injEq] at h
    rw [← h.1, ← h.2]
    rfl
  | case3 c rest hc q0 r0 hrec ih =>
    intro q r h
    rw [quoteSplit, hrec] at h
    · rw [Option.some.injEq, Prod.mk.injEq] at h
      rw [← h.1, ← h.2]
      have h2 := ih q0 r0 hrec
      rw [List.cons_append, ← h2]
    · exact hc
  | case4 c rest hc hrec ih =>
    intro q r h
    rw [quoteSplit, hrec] at h
    · simp at h
    · exact hc

theorem splitsOn_decomp {pat : List Char} :
    ∀ cs a b, (a, b) ∈ splitsOn pat cs → cs = a ++ pat ++ b := by
  intro cs
  induction cs with
  | nil => intro a b h; simp [splitsOn] at h
  | cons c rest ih =>
    intro a b h
    rw [splitsOn, List.mem_append] at h
    rcases h with h | h
    · split at h
      · rename_i hpre
        rw [List.mem_singleton, Prod.mk.injEq] at h
        rw [h.1, h.2]
        rw [List.isPrefixOf_iff_prefix] at hpre
        obtain ⟨t, ht⟩ := hpre
        rw [← ht, List.nil_append]
        congr 1
        rw [List.drop_left]
      · simp at h
    · rw [List.mem_map] at h
      obtain ⟨⟨a0, b0⟩, hmem, heq⟩ := h
      rw [Prod.mk.injEq] at heq
      rw [← heq.1, ← heq.2]
      have h2 := ih a0 b0 hmem
      dsimp only
      rw [h2]
      simp [List.append_assoc]

/-- The global scan for HTML img tags. -/
def scanImg : List Char → List MediaReference
  | '<' :: 'i' :: 'm' :: 'g' :: rest =>
    match h : takeToGt rest with
    | some (body, after) =>
      match imgChoose body with
      | some (src, alt) =>
        { original := ⟨'<' :: 'i' :: 'm' :: 'g' :: (body ++ ['>'])⟩,
          path := ⟨src⟩, alt := ⟨alt⟩ } :: scanImg after
      | none => scanImg ('i' :: 'm' :: 'g' :: rest)
    | none => scanImg ('i' :: 'm' :: 'g' :: rest)
  | _ :: cs => scanImg cs
  | [] => []
termination_by l => l.length
decreasing_by
  · have h2 := takeToGt_length h
    simp only [List.length_cons]
    omega
  · simp
  · simp
  · simp

/-- `MediaHandler.extractMediaReferences` (lines 140-175): the three global
regex scans, concatenated in source order — Obsidian embeds, then markdown
images, then HTML img tags. -/
def extractMediaReferences (content : String) : List MediaReference :=
  scanObsidian content.data ++ scanMarkdown content.data ++ scanImg content.data

/-! ### The vault and processMarkdown (lines 181-365)

A vault is the list of its files; a file carries its `name` (basename with
extension), its vault-relative `path`, its parent folder path and its
binary content.  `readBinary` is reading the stored bytes.  Folders are
not modelled separately: `getAbstractFileByPath` resolves only files, and
no claim depends on a folder colliding with a media path. -/

/-- An Obsidian `TFile`, reduced to the fields the handler reads. -/
structure TFile where
  name : String
  path : String
  parent : Option String
  bytes : List Nat
deriving Repr, DecidableEq

/-- The vault: `app.vault` with `getFiles()` as the file list. -/
structure Vault where
  files : List TFile
deriving Repr

/-- A prepared media upload, as pushed onto `mediaFiles`. -/
structure MediaUpload where
  targetPath : String
  content : String
deriving Repr, DecidableEq

/-- `vault.getAbstractFileByPath`, restricted to files. -/
def getAbstractFileByPath (v : Vault) (p : String) : Option TFile :=
  v.files.find? (fun f => f.path == p)

/-- The four resolution strategies of `processMarkdown`, in order: exact
name match for Obsidian embeds, full path, path relative to the active
file's folder, first file with the same basename. -/
def findMediaFile (v : Vault) (activeFile : Option TFile)
    (ref : MediaReference) : Option TFile :=
  let s1 :=
    if jsStartsWith ref.original "![[" then
      v.files.find? (fun f => f.name == ref.path)
    else none
  let s2 :=
    match s1 with
    | some f => some f
    | none => getAbstractFileByPath v ref.path
  let s3 :=
    match s2 with
    | some f => some f
    | none =>
      match activeFile with
      | some af =>
        match af.parent with
        | some folderPath => getAbstractFileByPath v (folderPath ++ "/" ++ ref.path)
        | none => none
      | none => none
  match s3 with
  | some f => some f
  | none => (v.files.filter (fun f => f.name == nodeBasename ref.path)).head?

/-- `String.prototype.replace` with a string pattern: the first occurrence
is replaced.  Dollar escapes in the replacement are not modelled; the
replacements built by the handler are image references used literally. -/
def replaceFirstList (pat rep : List Char) : List Char → List Char
  | [] => if pat.isPrefixOf ([] : List Char) then rep else []
  | c :: rest =>
    if pat.isPrefixOf (c :: rest) then rep ++ (c :: rest).drop pat.length
    else c :: replaceFirstList pat rep rest

/-- String wrapper for `replaceFirstList`. -/
def replaceFirstStr (s pat rep : String) : String :=
  ⟨replaceFirstList pat.data rep.data s.data⟩

/-- `.replace(/src="[^"]+"/, ...)` inside `createNewReference`: the first
src attribute with a nonempty value is rewritten to the new path. -/
def srcReplaceList (rep : List Char) : List Char → List Char
  | [] => []
  | c :: rest =>
    if ("src=\"".data).isPrefixOf (c :: rest) then
      match quoteSplit ((c :: rest).drop 5) with
      | some (s, r) =>
        if s = [] then c :: srcReplaceList rep rest
        else "src=\"".data ++ rep ++ '"' :: r
      | none => c :: srcReplaceList rep rest
    else c :: srcReplaceList rep rest

/-- `MediaHandler.createNewReference` (lines 370-389). -/
def createNewReference (ref : MediaReference) (newPath : String) : String :=
  if jsStartsWith ref.original "![[" then
    "![" ++ ref.alt ++ "](" ++ newPath ++ ")"
  else if jsStartsWith ref.original "![" then
    "![" ++ ref.alt ++ "](" ++ newPath ++ ")"
  else if jsStartsWith ref.original "<img" then
    ⟨srcReplaceList newPath.data ref.original.data⟩
  else
    "![" ++ ref.alt ++ "](" ++ newPath ++ ")"

/-- One iteration of the `for (const ref of references)` loop in
`processMarkdown`: skip external URLs, resolve the file, skip empty
uploads, otherwise push the upload and replace the first occurrence of the
reference. -/
def processOneRef (v : Vault) (activeFile : Option TFile) (mediaTarget : String)
    (st : String × List MediaUpload) (ref : MediaReference) :
    String × List MediaUpload :=
  if jsStartsWith ref.path "http://" || jsStartsWith ref.path "https://" then st
  else
    match findMediaFile v activeFile ref with
    | none => st
    | some f =>
      let targetPath := collapseSlashesStr (mediaTarget ++ "/" ++ f.name)
      let base64Content := base64Encode f.bytes
      if base64Content.length = 0 then st
      else
        (replaceFirstStr st.1 ref.original
           (createNewReference ref ("/" ++ targetPath)),
         st.2 ++ [⟨targetPath, base64Content⟩])

/-- `MediaHandler.processMarkdown` (lines 181-365): extract the references
and process them in order over the evolving content and upload list. -/
def processMarkdown (v : Vault) (activeFile : Option TFile)
    (mediaTarget : String) (content : String) : String × List MediaUpload :=
  let references := extractMediaReferences content
  if references.isEmpty then (content, [])
  else references.foldl (processOneRef v activeFile mediaTarget) (content, [])

/-- `PRCreationModal.createPR` (PR creation modal, lines 138-244), the full
publish pipeline: when media handling is enabled, the note text is first
run through `MediaHandler.processMarkdown`, and `createPullRequest` is then
invoked on the processed content.  The modal writes `mediaFiles: mediaFiles`
into the options object it passes, but the `CreatePROptions` interface that
`createPullRequest` destructures carries no such field, so the uploads
computed by `processMarkdown` reach no API call; the list surfaces only in
the success notice `Pull request created successfully with N media files!`,
whose count is the first component returned here.  Template rendering is
taken as the already-processed strings (`processed.filename` etc.). -/
def modalCreatePR (mediaEnabled : Bool) (v : Vault) (activeFile : Option TFile)
    (mediaTarget : String) (content : String) (repo : Repository)
    (filename title body commitMessage branchName : String) (st : RemoteState) :
    List MediaUpload × (Except String String × RemoteState) :=
  let processed :=
    if mediaEnabled then processMarkdown v activeFile mediaTarget content
    else (content, [])
  (processed.2,
   createPullRequest
     ⟨repo, filename, processed.1, title, body, commitMessage, branchName⟩ st)

/-- A vault holding the image embedded by the note of the C1 run. -/
def c1Vault : Vault := ⟨[⟨"img.png", "img.png", none, [1, 2, 3]⟩]⟩

/-- One publish invocation with media handling enabled, on a note that is a
single Obsidian embed of a resolvable vault image, against a remote holding
only the base branch. -/
def c1Run : List MediaUpload × (Except String String × RemoteState) :=
  modalCreatePR true c1Vault none "public/images" "![[img.png]]" sampleRepo
    "post.md" "T" "B" "add post" "post/hello" mainRemote

/-! ### Soundness of the three scans: every returned reference is an
occurrence in the content of the documented shape -/

theorem cons_append3 (x : Char) (p q r : List Char) :
    (x :: p) ++ q ++ r = x :: (p ++ q ++ r) := by simp

theorem scanObsidian_sound :
    ∀ cs r, r ∈ scanObsidian cs →
      (∃ pre post, cs = pre ++ r.original.data ++ post) ∧
      ∃ inner, r.original.data = '!' :: '[' :: '[' :: (inner ++ [']', ']']) ∧
        r.path = ⟨inner⟩ ∧
        r.alt = nodeBasenameExt r.path (nodeExtname r.path) := by
  intro cs
  induction cs using scanObsidian.induct with
  | case1 rest inner r2 hfind ih =>
    intro r hr
    rw [scanObsidian, hfind, List.mem_cons] at hr
    rcases hr with hr | hr
    · subst hr
      constructor
      · refine ⟨[], r2, ?_⟩
        have h2 := obFind_decomp rest inner r2 hfind
        rw [List.nil_append]
        dsimp only
        rw [h2]
        simp
      · exact ⟨inner, by simp, rfl, rfl⟩
    · obtain ⟨⟨pre, post, hdec⟩, hshape⟩ := ih r hr
      refine ⟨⟨'!' :: '[' :: '[' :: (inner ++ [']', ']']) ++ pre, post, ?_⟩, hshape⟩
      have h2 := obFind_decomp rest inner r2 hfind
      rw [h2, hdec]
      simp
  | case2 rest hfind ih =>
    intro r hr
    rw [scanObsidian, hfind] at hr
    obtain ⟨⟨pre, post, hdec⟩, hshape⟩ := ih r hr
    refine ⟨⟨'!' :: pre, post, ?_⟩, hshape⟩
    rw [cons_append3, ← hdec]
  | case3 c cs hne ih =>
    intro r hr
    rw [scanObsidian] at hr
    · obtain ⟨⟨pre, post, hdec⟩, hshape⟩ := ih r hr
      refine ⟨⟨c :: pre, post, ?_⟩, hshape⟩
      rw [cons_append3, ← hdec]
    · exact hne
  | case4 =>
    intro r hr
    simp [scanObsidian] at hr

theorem scanMarkdown_sound :
    ∀ cs r, r ∈ scanMarkdown cs →
      (∃ pre post, cs = pre ++ r.original.data ++ post) ∧
      ∃ a p, r.original.data = '!' :: '[' :: (a ++ ']' :: '(' :: (p ++ [')'])) ∧
        r.alt = ⟨a⟩ ∧ r.path = ⟨p⟩ := by
  intro cs
  induction cs using scanMarkdown.induct with
  | case1 rest a p r2 hfind ih =>
    intro r hr
    rw [scanMarkdown, hfind, List.mem_cons] at hr
    rcases hr with hr | hr
    · subst hr
      constructor
      · refine ⟨[], r2, ?_⟩
        have h2 := mdFindAlt_decomp rest a p r2 hfind
        rw [List.nil_append]
        dsimp only
        rw [h2]
        simp
      · exact ⟨a, p, by simp, rfl, rfl⟩
    · obtain ⟨⟨pre, post, hdec⟩, hshape⟩ := ih r hr
      refine ⟨⟨'!' :: '[' :: (a ++ ']' :: '(' :: (p ++ [')'])) ++ pre, post, ?_⟩,
        hshape⟩
      have h2 := mdFindAlt_decomp rest a p r2 hfind
      rw [h2, hdec]
      simp
  | case2 rest hfind ih =>
    intro r hr
    rw [scanMarkdown, hfind] at hr
    obtain ⟨⟨pre, post, hdec⟩, hshape⟩ := ih r hr
    refine ⟨⟨'!' :: pre, post, ?_⟩, hshape⟩
    rw [cons_append3, ← hdec]
  | case3 c cs hne ih =>
    intro r hr
    rw [scanMarkdown] at hr
    · obtain ⟨⟨pre, post, hdec⟩, hshape⟩ := ih r hr
      refine ⟨⟨c :: pre, post, ?_⟩, hshape⟩
      rw [cons_append3, ← hdec]
    · exact hne
  | case4 =>
    intro r hr
    simp [scanMarkdown] at hr

theorem imgChooseAlt_sound {rest1 t : List Char}
    (h : imgChooseAlt rest1 = some t) :
    ∃ b c, rest1 = b ++ "alt=\"".data ++ t ++ '"' :: c := by
  unfold imgChooseAlt at h
  have hmem := List.mem_of_getLast?_eq_some h
  rw [List.mem_filterMap] at hmem
  obtain ⟨⟨b, afterAlt⟩, hmem2, hfn⟩ := hmem
  have hdec := splitsOn_decomp rest1 b afterAlt hmem2
  rw [Option.map_eq_some'] at hfn
  obtain ⟨⟨q, c⟩, hq, hq2⟩ := hfn
  have hdec2 := quoteSplit_decomp afterAlt q c hq
  dsimp only at hq2
  subst hq2
  refine ⟨b, c, ?_⟩
  rw [hdec, hdec2]
  simp

theorem imgChoose_sound {body src alt : List Char}
    (h : imgChoose body = some (src, alt)) :
    ∃ a rest1 b c,
      body = a ++ "src=\"".data ++ src ++ '"' :: rest1 ∧
      rest1 = b ++ "alt=\"".data ++ alt ++ '"' :: c ∧
      a ≠ [] ∧ src ≠ [] := by
  unfold imgChoose at h
  have hmem := List.mem_of_getLast?_eq_some h
  rw [List.mem_filterMap] at hmem
  obtain ⟨⟨a, afterSrc⟩, hmem2, hfn⟩ := hmem
  have hdec := splitsOn_decomp body a afterSrc hmem2
  dsimp only at hfn
  split at hfn
  · simp at hfn
  · rename_i hA
    split at hfn
    · simp at hfn
    · rename_i s rest1 hq
      split at hfn
      · simp at hfn
      · rename_i hS
        split at hfn
        · simp at hfn
        · rename_i t halt
          rw [Option.some.injEq, Prod.mk.injEq] at hfn
          obtain ⟨hfn1, hfn2⟩ := hfn
          subst hfn1
          subst hfn2
          have hdec2 := quoteSplit_decomp afterSrc s rest1 hq
          obtain ⟨b, c, hdec3⟩ := imgChooseAlt_sound halt
          refine ⟨a, rest1, b, c, ?_, hdec3, hA, hS⟩
          rw [hdec, hdec2]
          simp

theorem scanImg_sound :
    ∀ cs r, r ∈ scanImg cs →
      (∃ pre post, cs = pre ++ r.original.data ++ post) ∧
      ∃ a s b t c,
        r.original.data =
          '<' :: 'i' :: 'm' :: 'g' ::
            ((a ++ "src=\"".data ++ s ++ '"' ::
              (b ++ "alt=\"".data ++ t ++ '"' :: c)) ++ ['>']) ∧
        a ≠ [] ∧ s ≠ [] ∧ r.path = ⟨s⟩ ∧ r.alt = ⟨t⟩ := by
  intro cs
  induction cs using scanImg.induct with
  | case1 rest body after hgt src alt hchoose ih =>
    intro r hr
    rw [scanImg, hgt] at hr
    dsimp only at hr
    rw [hchoose, List.mem_cons] at hr
    have hbody := takeToGt_decomp rest body after hgt
    obtain ⟨a, rest1, b, c, hb1, hb2, hA, hS⟩ := imgChoose_sound hchoose
    rcases hr with hr | hr
    · subst hr
      constructor
      · refine ⟨[], after, ?_⟩
        rw [List.nil_append]
        dsimp only
        rw [hbody]
        simp
      · refine ⟨a, src, b, alt, c, ?_, hA, hS, rfl, rfl⟩
        dsimp only
        rw [hb1, hb2]
    · obtain ⟨⟨pre, post, hdec⟩, hshape⟩ := ih r hr
      refine ⟨⟨'<' :: 'i' :: 'm' :: 'g' :: (body ++ ['>']) ++ pre, post, ?_⟩, hshape⟩
      rw [hbody, hdec]
      simp
  | case2 rest body after hgt hchoose ih =>
    intro r hr
    rw [scanImg, hgt] at hr
    dsimp only at hr
    rw [hchoose] at hr
    obtain ⟨⟨pre, post, hdec⟩, hshape⟩ := ih r hr
    refine ⟨⟨'<' :: pre, post, ?_⟩, hshape⟩
    rw [cons_append3, ← hdec]
  | case3 rest hgt ih =>
    intro r hr
    rw [scanImg, hgt] at hr
    obtain ⟨⟨pre, post, hdec⟩, hshape⟩ := ih r hr
    refine ⟨⟨'<' :: pre, post, ?_⟩, hshape⟩
    rw [cons_append3, ← hdec]
  | case4 c cs hne ih =>
    intro r hr
    rw [scanImg] at hr
    · obtain ⟨⟨pre, post, hdec⟩, hshape⟩ := ih r hr
      refine ⟨⟨c :: pre, post, ?_⟩, hshape⟩
      rw [cons_append3, ← hdec]
    · exact hne
  | case5 =>
    intro r hr
    simp [scanImg] at hr

/-! ### Completeness of the Obsidian and markdown scans: content holding an
occurrence yields at least one reference -/

theorem obFind_cons_cons_close (rest : List Char) :
    obFind (']' :: ']' :: rest) = some ([], rest) := by
  rw [obFind]

theorem obFind_of_shape :
    ∀ inner r : List Char, (∀ c ∈ inner, isLineTerm c = false) →
      ∃ inner2 r2, obFind (inner ++ ']' :: ']' :: r) = some (inner2, r2) := by
  intro inner
  induction inner with
  | nil =>
    intro r hfree
    exact ⟨[], r, by rw [List.nil_append, obFind_cons_cons_close]⟩
  | cons c inner2 ih =>
    intro r hfree
    have hterm : isLineTerm c = false := hfree c (by simp)
    have hfree2 : ∀ d ∈ inner2, isLineTerm d = false :=
      fun d hd => hfree d (by simp [hd])
    by_cases hc : c = ']'
    · subst hc
      rcases hhead : inner2 ++ ']' :: ']' :: r with _ | ⟨d, tail⟩
      · simp at hhead
      · by_cases hd : d = ']'
        · subst hd
          refine ⟨[], tail, ?_⟩
          rw [List.cons_append, hhead, obFind_cons_cons_close]
        · obtain ⟨i2, r2, hsome⟩ := ih r hfree2
          refine ⟨']' :: i2, r2, ?_⟩
          rw [List.cons_append]
          rw [obFind_cons_eq, if_neg (by simp [hterm]), hsome]
          intro rest2 hEq hEq2
          rw [hhead] at hEq2
          cases hEq2
          exact hd rfl
    · obtain ⟨i2, r2, hsome⟩ := ih r hfree2
      refine ⟨c :: i2, r2, ?_⟩
      rw [List.cons_append]
      rw [obFind_cons_eq, if_neg (by simp [hterm]), hsome]
      intro rest2 hEq hEq2
      exact hc hEq

theorem scanObsidian_complete :
    ∀ cs pre inner post : List Char, (∀ c ∈ inner, isLineTerm c = false) →
      cs = pre ++ '!' :: '[' :: '[' :: (inner ++ ']' :: ']' :: post) →
      scanObsidian cs ≠ [] := by
  intro cs
  induction cs using scanObsidian.induct with
  | case1 rest inner0 r2 hfind ih =>
    intro pre inner post hfree heq
    rw [scanObsidian, hfind]
    simp
  | case2 rest hfind ih =>
    intro pre inner post hfree heq
    rcases pre with _ | ⟨c, pre2⟩
    · rw [List.nil_append] at heq
      injection heq with h1 heq
      injection heq with h2 heq
      injection heq with h3 heq
      obtain ⟨i2, r2, hsome⟩ := obFind_of_shape inner post hfree
      rw [heq] at hfind
      rw [hfind] at hsome
      cases hsome
    · rw [List.cons_append] at heq
      injection heq with h1 heq
      rw [scanObsidian, hfind]
      exact ih pre2 inner post hfree heq
  | case3 head cs hne ih =>
    intro pre inner post hfree heq
    rcases pre with _ | ⟨c, pre2⟩
    · rw [List.nil_append] at heq
      injection heq with h1 heq
      exact (hne (inner ++ ']' :: ']' :: post) h1 heq).elim
    · rw [List.cons_append] at heq
      injection heq with h1 heq
      rw [scanObsidian]
      · exact ih pre2 inner post hfree heq
      · exact hne
  | case4 =>
    intro pre inner post hfree heq
    simp at heq

theorem mdFindPath_close (rest : List Char) :
    mdFindPath (')' :: rest) = some ([], rest) := by
  rw [mdFindPath]

theorem mdFindPath_cons_eq {c : Char} {rest : List Char}
    (hc : c ≠ ')') :
    mdFindPath (c :: rest) =
      (if isLineTerm c then none
       else
         match mdFindPath rest with
         | some (p, r) => some (c :: p, r)
         | none => none) := by
  rw [mdFindPath]
  intro h
  exact hc h

theorem mdFindPath_of_shape :
    ∀ p r : List Char, (∀ c ∈ p, isLineTerm c = false) →
      ∃ p2 r2, mdFindPath (p ++ ')' :: r) = some (p2, r2) := by
  intro p
  induction p with
  | nil =>
    intro r hfree
    exact ⟨[], r, by rw [List.nil_append, mdFindPath_close]⟩
  | cons c p2 ih =>
    intro r hfree
    have hterm : isLineTerm c = false := hfree c (by simp)
    have hfree2 : ∀ d ∈ p2, isLineTerm d = false :=
      fun d hd => hfree d (by simp [hd])
    by_cases hc : c = ')'
    · subst hc
      exact ⟨[], p2 ++ ')' :: r, by rw [List.cons_append, mdFindPath_close]⟩
    · obtain ⟨q2, r2, hsome⟩ := ih r hfree2
      refine ⟨c :: q2, r2, ?_⟩
      rw [List.cons_append, mdFindPath_cons_eq hc, if_neg (by simp [hterm]), hsome]

theorem mdFindAlt_close (rest : List Char) :
    mdFindAlt (']' :: '(' :: rest) =
      (match mdFindPath rest with
       | some (p, r) => some ([], p, r)
       | none =>
         match mdFindAlt rest with
         | some (a, p, r) => some (']' :: '(' :: a, p, r)
         | none => none) := by
  rw [mdFindAlt]

theorem mdFindAlt_cons_eq {c : Char} {rest : List Char}
    (hc : ∀ rest2, c = ']' → rest = '(' :: rest2 → False) :
    mdFindAlt (c :: rest) =
      (if isLineTerm c then none
       else
         match mdFindAlt rest with
         | some (a, p, r) => some (c :: a, p, r)
         | none => none) := by
  rw [mdFindAlt]
  exact hc

theorem mdFindAlt_of_shape_n :
    ∀ n alt p r : List Char, True → alt.length ≤ n.length →
      (∀ c ∈ alt, isLineTerm c = false) → (∀ c ∈ p, isLineTerm c = false) →
      ∃ a2 p2 r2,
        mdFindAlt (alt ++ ']' :: '(' :: (p ++ ')' :: r)) = some (a2, p2, r2) := by
  intro n
  induction n with
  | nil =>
    intro alt p r _ hlen hfreea hfreep
    have halt : alt = [] := by
      cases alt with
      | nil => rfl
      | cons c cs => simp at hlen
    subst halt
    obtain ⟨p2, r2, hsome⟩ := mdFindPath_of_shape p r hfreep
    refine ⟨[], p2, r2, ?_⟩
    rw [List.nil_append, mdFindAlt_close, hsome]
  | cons x n2 ih =>
    intro alt p r _ hlen hfreea hfreep
    rcases alt with _ | ⟨c, alt2⟩
    · obtain ⟨p2, r2, hsome⟩ := mdFindPath_of_shape p r hfreep
      refine ⟨[], p2, r2, ?_⟩
      rw [List.nil_append, mdFindAlt_close, hsome]
    · have hterm : isLineTerm c = false := hfreea c (by simp)
      have hfreea2 : ∀ d ∈ alt2, isLineTerm d = false :=
        fun d hd => hfreea d (by simp [hd])
      have hlen2 : alt2.length ≤ n2.length := by
        simp only [List.length_cons] at hlen
        omega
      by_cases hc : c = ']'
      · subst hc
        rcases halt2 : alt2 with _ | ⟨d, alt3⟩
        · -- the segment after the close bracket starts with another close
          obtain ⟨a2, p2, r2, hsome⟩ := ih alt2 p r trivial hlen2 hfreea2 hfreep
          rw [halt2, List.nil_append] at hsome
          refine ⟨']' :: a2, p2, r2, ?_⟩
          rw [List.cons_append, List.nil_append]
          rw [mdFindAlt_cons_eq, if_neg (by simp [hterm]), hsome]
          intro rest2 hEq hEq2
          cases hEq2
        · by_cases hd : d = '('
          · subst hd
            -- close bracket then open paren: the direct arm applies
            rcases hpath : mdFindPath (alt3 ++ ']' :: '(' :: (p ++ ')' :: r)) with
              _ | ⟨p0, r0⟩
            · -- the direct path fails: the engine backtracks past the pair
              have hfreea3 : ∀ d ∈ alt3, isLineTerm d = false := by
                intro d hd2
                refine hfreea2 d ?_
                rw [halt2]
                simp [hd2]
              have hlen3 : alt3.length ≤ n2.length := by
                rw [halt2] at hlen2
                simp only [List.length_cons] at hlen2
                omega
              obtain ⟨a2, p2, r2, hsome⟩ := ih alt3 p r trivial hlen3 hfreea3 hfreep
              refine ⟨']' :: '(' :: a2, p2, r2, ?_⟩
              show mdFindAlt
                  (']' :: '(' :: (alt3 ++ ']' :: '(' :: (p ++ ')' :: r))) =
                some (']' :: '(' :: a2, p2, r2)
              rw [mdFindAlt_close, hpath, hsome]
            · refine ⟨[], p0, r0, ?_⟩
              show mdFindAlt
                  (']' :: '(' :: (alt3 ++ ']' :: '(' :: (p ++ ')' :: r))) =
                some ([], p0, r0)
              rw [mdFindAlt_close, hpath]
          · obtain ⟨a2, p2, r2, hsome⟩ := ih alt2 p r trivial hlen2 hfreea2 hfreep
            refine ⟨']' :: a2, p2, r2, ?_⟩
            rw [List.cons_append]
            rw [mdFindAlt_cons_eq, if_neg (by simp [hterm]), ← halt2, hsome]
            intro rest2 hEq hEq2
            rw [List.cons_append] at hEq2
            cases hEq2
            exact hd rfl
      · obtain ⟨a2, p2, r2, hsome⟩ := ih alt2 p r trivial hlen2 hfreea2 hfreep
        refine ⟨c :: a2, p2, r2, ?_⟩
        rw [List.cons_append]
        rw [mdFindAlt_cons_eq, if_neg (by simp [hterm]), hsome]
        intro rest2 hEq hEq2
        exact hc hEq

theorem mdFindAlt_of_shape (alt p r : List Char)
    (hfreea : ∀ c ∈ alt, isLineTerm c = false)
    (hfreep : ∀ c ∈ p, isLineTerm c = false) :
    ∃ a2 p2 r2,
      mdFindAlt (alt ++ ']' :: '(' :: (p ++ ')' :: r)) = some (a2, p2, r2) :=
  mdFindAlt_of_shape_n alt alt p r trivial (Nat.le_refl _) hfreea hfreep

theorem scanMarkdown_complete :
    ∀ cs pre alt path post : List Char,
      (∀ c ∈ alt, isLineTerm c = false) → (∀ c ∈ path, isLineTerm c = false) →
      cs = pre ++ '!' :: '[' :: (alt ++ ']' :: '(' :: (path ++ ')' :: post)) →
      scanMarkdown cs ≠ [] := by
  intro cs
  induction cs using scanMarkdown.induct with
  | case1 rest a0 p0 r2 hfind ih =>
    intro pre alt path post hfreea hfreep heq
    rw [scanMarkdown, hfind]
    simp
  | case2 rest hfind ih =>
    intro pre alt path post hfreea hfreep heq
    rcases pre with _ | ⟨c, pre2⟩
    · rw [List.nil_append] at heq
      injection heq with h1 heq
      injection heq with h2 heq
      obtain ⟨a2, p2, r2, hsome⟩ := mdFindAlt_of_shape alt path post hfreea hfreep
      rw [heq] at hfind
      rw [hfind] at hsome
      cases hsome
    · rw [List.cons_append] at heq
      injection heq with h1 heq
      rw [scanMarkdown, hfind]
      exact ih pre2 alt path post hfreea hfreep heq
  | case3 head cs hne ih =>
    intro pre alt path post hfreea hfreep heq
    rcases pre with _ | ⟨c, pre2⟩
    · rw [List.nil_append] at heq
      injection heq with h1 heq
      exact (hne (alt ++ ']' :: '(' :: (path ++ ')' :: post)) h1 heq).elim
    · rw [List.cons_append] at heq
      injection heq with h1 heq
      rw [scanMarkdown]
      · exact ih pre2 alt path post hfreea hfreep heq
      · exact hne
  | case4 =>
    intro pre alt path post hfreea hfreep heq
    simp at heq

/-! ### Claim C7 -/

/-- Counterexample to C7: an HTML img tag carrying both a src and an alt
attribute, but with alt written before src, yields no reference at all —
the img regex requires src to precede alt.  The same tag with the
attributes swapped is extracted. -/
theorem extractMediaReferences_misses_alt_before_src :
    extractMediaReferences "<img alt=\"a\" src=\"b.png\">" = [] ∧
    extractMediaReferences "<img src=\"b.png\" alt=\"a\">" =
      [⟨"<img src=\"b.png\" alt=\"a\">", "b.png", "a"⟩] := by
  constructor <;>
  · simp [extractMediaReferences, scanObsidian, scanMarkdown, scanImg, obFind,
      mdFindAlt, mdFindPath, takeToGt, imgChoose, imgChooseAlt, splitsOn,
      quoteSplit, isLineTerm]
    try decide

/-- C7 (amended): `extractMediaReferences` returns the matches of the three
global regex scans in group order — Obsidian embeds, markdown images, HTML
img tags in which a src attribute precedes an alt attribute.  Every
returned reference occurs verbatim in the content with the shape of its
group; an Obsidian reference's alt text is the embedded file's basename
without its extension; and content containing an Obsidian embed or a
markdown image (with terminator-free captures) always yields a reference
of that group. -/
theorem extractMediaReferences_spec (content : String) :
    extractMediaReferences content =
      scanObsidian content.data ++ scanMarkdown content.data ++
        scanImg content.data ∧
    (∀ r ∈ scanObsidian content.data,
      (∃ pre post, content.data = pre ++ r.original.data ++ post) ∧
      ∃ inner, r.original.data = '!' :: '[' :: '[' :: (inner ++ [']', ']']) ∧
        r.path = ⟨inner⟩ ∧
        r.alt = nodeBasenameExt r.path (nodeExtname r.path)) ∧
    (∀ r ∈ scanMarkdown content.data,
      (∃ pre post, content.data = pre ++ r.original.data ++ post) ∧
      ∃ a p, r.original.data = '!' :: '[' :: (a ++ ']' :: '(' :: (p ++ [')'])) ∧
        r.alt = ⟨a⟩ ∧ r.path = ⟨p⟩) ∧
    (∀ r ∈ scanImg content.data,
      (∃ pre post, content.data = pre ++ r.original.data ++ post) ∧
      ∃ a s b t c,
        r.original.data =
          '<' :: 'i' :: 'm' :: 'g' ::
            ((a ++ "src=\"".data ++ s ++ '"' ::
              (b ++ "alt=\"".data ++ t ++ '"' :: c)) ++ ['>']) ∧
        a ≠ [] ∧ s ≠ [] ∧ r.path = ⟨s⟩ ∧ r.alt = ⟨t⟩) ∧
    (∀ pre inner post : List Char, (∀ c ∈ inner, isLineTerm c = false) →
      content.data = pre ++ '!' :: '[' :: '[' :: (inner ++ ']' :: ']' :: post) →
      scanObsidian content.data ≠ []) ∧
    (∀ pre alt path post : List Char,
      (∀ c ∈ alt, isLineTerm c = false) → (∀ c ∈ path, isLineTerm c = false) →
      content.data = pre ++ '!' :: '[' :: (alt ++ ']' :: '(' :: (path ++ ')' :: post)) →
      scanMarkdown content.data ≠ []) :=
  ⟨rfl, scanObsidian_sound content.data, scanMarkdown_sound content.data,
   scanImg_sound content.data,
   fun pre inner post hfree heq =>
     scanObsidian_complete content.data pre inner post hfree heq,
   fun pre alt path post hfa hfp heq =>
     scanMarkdown_complete content.data pre alt path post hfa hfp heq⟩

/-- Witness for the amended C7: the soundness and completeness clauses
instantiated on a concrete note. -/
theorem extractMediaReferences_spec_witness :
    (∃ pre post, ("a ![[im.png]] b" : String).data =
       pre ++ ("![[im.png]]" : String).data ++ post) ∧
    scanObsidian ("a ![[im.png]] b" : String).data ≠ [] := by
  have h := extractMediaReferences_spec "a ![[im.png]] b"
  constructor
  · refine (h.2.1 ⟨"![[im.png]]", "im.png", "im"⟩ ?_).1
    have hx : scanObsidian ("a ![[im.png]] b" : String).data =
        [⟨"![[im.png]]", "im.png", "im"⟩] := by
      simp [scanObsidian, obFind, isLineTerm, nodeBasenameExt, nodeExtname,
        nodeBasename]
      try decide
    rw [hx]
    simp
  · exact h.2.2.2.2.1 ("a ".data) ("im.png".data) (" b".data) (by decide)
      (by decide)

/-! ### Claims C8 and C6 -/

/-- A small vault: a normal image, an empty file, an image findable only
by basename. -/
def sampleVault : Vault :=
  ⟨[⟨"img.png", "media/img.png", some "media", [1, 2, 3]⟩,
    ⟨"empty.bin", "media/empty.bin", some "media", []⟩,
    ⟨"pic.png", "pics/pic.png", some "pics", [7]⟩]⟩

/-- C8: with no media references the content and the upload list come back
untouched, and a reference whose path starts with http:// or https:// is a
complete no-op for the loop state: nothing is uploaded and nothing is
replaced. -/
theorem processMarkdown_frame (v : Vault) (a : Option TFile) (mt content : String) :
    (extractMediaReferences content = [] →
      processMarkdown v a mt content = (content, [])) ∧
    (∀ (st : String × List MediaUpload) (ref : MediaReference),
      (jsStartsWith ref.path "http://" || jsStartsWith ref.path "https://") = true →
      processOneRef v a mt st ref = st) := by
  constructor
  · intro h
    unfold processMarkdown
    rw [h]
    rfl
  · intro st ref h
    unfold processOneRef
    rw [if_pos h]

/-- Witness for C8 on the sample vault. -/
theorem processMarkdown_frame_witness :
    processMarkdown sampleVault none "public/images" "no refs" = ("no refs", []) ∧
    processOneRef sampleVault none "public/images" ("c", [])
      ⟨"![x](https://a.com/b.png)", "https://a.com/b.png", "x"⟩ = ("c", []) := by
  constructor
  · refine (processMarkdown_frame sampleVault none "public/images" "no refs").1 ?_
    simp [extractMediaReferences, scanObsidian, scanMarkdown, scanImg, obFind,
      mdFindAlt, mdFindPath, takeToGt, imgChoose, imgChooseAlt, splitsOn,
      quoteSplit, isLineTerm]
  · exact (processMarkdown_frame sampleVault none "public/images" "no refs").2
      ("c", []) ⟨"![x](https://a.com/b.png)", "https://a.com/b.png", "x"⟩
      (by decide)

/-- Counterexample to C6, on content holding an Obsidian embed of an empty
vault file and an HTML img tag of a one-byte vault file.  The embed
resolves to a vault file, yet no MediaUpload is produced for it and its
occurrence is left in place (the empty base64 payload is skipped); and the
img reference is not replaced by a markdown image reference but by the
original tag with its src attribute rewritten. -/
theorem processMarkdown_c6_counterexample :
    findMediaFile sampleVault none ⟨"![[empty.bin]]", "empty.bin", "empty"⟩ =
      some ⟨"empty.bin", "media/empty.bin", some "media", []⟩ ∧
    (processMarkdown sampleVault none "public/images"
        "![[empty.bin]]<img src=\"pic.png\" alt=\"a\">").2 =
      [⟨"public/images/pic.png", "Bw=="⟩] ∧
    (processMarkdown sampleVault none "public/images"
        "![[empty.bin]]<img src=\"pic.png\" alt=\"a\">").1 =
      "![[empty.bin]]<img src=\"/public/images/pic.png\" alt=\"a\">" := by
  refine ⟨by decide, ?_, ?_⟩ <;>
  · simp [processMarkdown, extractMediaReferences, scanObsidian, scanMarkdown,
      scanImg, obFind, mdFindAlt, mdFindPath, takeToGt, imgChoose,
      imgChooseAlt, splitsOn, quoteSplit, isLineTerm, processOneRef,
      findMediaFile, getAbstractFileByPath, jsStartsWith, collapseSlashesStr,
      collapseSlashes, base64Encode, base64Chunks, base64Char, base64Alphabet,
      replaceFirstStr, replaceFirstList, createNewReference, srcReplaceList,
      nodeBasenameExt, nodeExtname, nodeBasename, sampleVault]
    try decide

theorem base64Encode_length_zero_iff (bytes : List Nat) :
    (base64Encode bytes).length = 0 ↔ bytes = [] := by
  rcases bytes with _ | ⟨x, _ | ⟨y, _ | ⟨z, rest⟩⟩⟩ <;>
    simp [base64Encode, base64Chunks, String.length]

/-- C6 (amended): a non-external reference that resolves to a vault file
with nonempty bytes produces exactly one MediaUpload, whose targetPath is
the configured media target path joined with the file's name (with slash
runs collapsed) and whose content is the base64 encoding of the file's
bytes, and the first occurrence of the reference is replaced; a reference
resolving to an empty file is skipped entirely.  The replacement is the
markdown image bang, bracketed alt, parenthesised slash-prefixed
targetPath for Obsidian embeds and markdown images, while for an HTML img
tag it is the original tag with its first src attribute rewritten. -/
theorem processOneRef_resolved_spec (v : Vault) (a : Option TFile) (mt : String)
    (st : String × List MediaUpload) (ref : MediaReference) (f : TFile)
    (hext : (jsStartsWith ref.path "http://" ||
             jsStartsWith ref.path "https://") = false)
    (hfind : findMediaFile v a ref = some f) :
    (f.bytes = [] → processOneRef v a mt st ref = st) ∧
    (f.bytes ≠ [] →
      processOneRef v a mt st ref =
        (replaceFirstStr st.1 ref.original
           (createNewReference ref ("/" ++ collapseSlashesStr (mt ++ "/" ++ f.name))),
         st.2 ++ [⟨collapseSlashesStr (mt ++ "/" ++ f.name),
                   base64Encode f.bytes⟩])) ∧
    (jsStartsWith ref.original "![[" = true ∨ jsStartsWith ref.original "![" = true →
      createNewReference ref ("/" ++ collapseSlashesStr (mt ++ "/" ++ f.name)) =
        "![" ++ ref.alt ++ "](" ++
          ("/" ++ collapseSlashesStr (mt ++ "/" ++ f.name)) ++ ")") ∧
    (jsStartsWith ref.original "![" = false →
      jsStartsWith ref.original "<img" = true →
      createNewReference ref ("/" ++ collapseSlashesStr (mt ++ "/" ++ f.name)) =
        ⟨srcReplaceList ("/" ++ collapseSlashesStr (mt ++ "/" ++ f.name)).data
          ref.original.data⟩) := by
  have hbrackets : jsStartsWith ref.original "![" = false →
      jsStartsWith ref.original "![[" = false := by
    intro h
    by_cases h2 : jsStartsWith ref.original "![[" = true
    · exfalso
      unfold jsStartsWith at h h2
      rw [List.isPrefixOf_iff_prefix] at h2
      have h3 : ("![" : String).data <+: ("![[" : String).data := ⟨['['], rfl⟩
      have h4 := h3.trans h2
      rw [← List.isPrefixOf_iff_prefix] at h4
      rw [h] at h4
      cases h4
    · simpa using h2
  refine ⟨?_, ?_, ?_, ?_⟩
  · intro hb
    unfold processOneRef
    rw [if_neg (by simp [hext]), hfind]
    dsimp only
    rw [if_pos (by rw [hb]; rfl)]
  · intro hb
    unfold processOneRef
    rw [if_neg (by simp [hext]), hfind]
    dsimp only
    rw [if_neg (by rw [base64Encode_length_zero_iff]; exact hb)]
  · intro h
    rcases h with h | h
    · unfold createNewReference
      rw [if_pos h]
    · by_cases h2 : jsStartsWith ref.original "![[" = true
      · unfold createNewReference
        rw [if_pos h2]
      · unfold createNewReference
        rw [if_neg (by simpa using h2), if_pos h]
  · intro h1 h2
    unfold createNewReference
    rw [if_neg (by simp [hbrackets h1]), if_neg (by simp [h1]), if_pos h2]

/-- Witness for the amended C6: the img reference of the counterexample
content, resolved through the basename strategy to a one-byte file. -/
theorem processOneRef_resolved_spec_witness :
    processOneRef sampleVault none "public/images" ("x", [])
      ⟨"<img src=\"pic.png\" alt=\"a\">", "pic.png", "a"⟩ =
      (replaceFirstStr "x" "<img src=\"pic.png\" alt=\"a\">"
         (createNewReference ⟨"<img src=\"pic.png\" alt=\"a\">", "pic.png", "a"⟩
           ("/" ++ collapseSlashesStr ("public/images" ++ "/" ++ "pic.png"))),
       [] ++ [⟨collapseSlashesStr ("public/images" ++ "/" ++ "pic.png"),
              base64Encode [7]⟩]) :=
  (processOneRef_resolved_spec sampleVault none "public/images" ("x", [])
    ⟨"<img src=\"pic.png\" alt=\"a\">", "pic.png", "a"⟩
    ⟨"pic.png", "pics/pic.png", some "pics", [7]⟩
    (by decide) (by decide)).2.1 (by decide)

/-- C1: the pipeline has no media-upload stage.  On a successful publish
invocation with media handling enabled, a resolvable embedded image is
extracted and prepared as a MediaUpload (the success notice reports one
media file), yet the remote log of the run holds no putFile for it: the
calls are exactly the base-branch getRef, the createRef of the new branch,
the single putFile of the content file, and the createPull.  The
mediaFiles list the modal passes is dropped by `createPullRequest`, whose
options interface carries no such field. -/
theorem modalCreatePR_drops_media_uploads :
    c1Run.1 = [⟨"public/images/img.png", "AQID"⟩] ∧
    c1Run.2.1 = Except.ok (pullHtmlUrl "alice" "blog" 1) ∧
    c1Run.2.2.log =
      [ApiCall.getRef "heads/main",
       ApiCall.createRef "refs/heads/post/hello" "sha0",
       ApiCall.putFile "post/hello" "content/posts/post.md",
       ApiCall.createPull "post/hello" "main"] ∧
    (c1Run.2.2.log.all
       (fun c => c != ApiCall.putFile "post/hello" "public/images/img.png")) =
      true := by
  refine ⟨?_, ?_, ?_, ?_⟩ <;>
  · simp [c1Run, modalCreatePR, processMarkdown, extractMediaReferences,
      scanObsidian, scanMarkdown, scanImg, obFind, mdFindAlt, mdFindPath,
      takeToGt, imgChoose, imgChooseAlt, splitsOn, quoteSplit, isLineTerm,
      processOneRef, findMediaFile, getAbstractFileByPath, jsStartsWith,
      collapseSlashesStr, collapseSlashes, base64Encode, base64Chunks,
      base64Char, base64Alphabet, replaceFirstStr, replaceFirstList,
      createNewReference, nodeBasenameExt, nodeExtname, nodeBasename,
      c1Vault, sampleRepo, mainRemote, createPullRequest,
      createPullRequestRaw, apiGetRef, apiCreateRef, apiPutFile,
      apiCreatePull, stripPrefixStr, findBranch, findFile, stringToBase64,
      utf8Encode, utf8Bytes, pullHtmlUrl]
    try decide

end ContentPublisher
